import Mathlib

/-!
Verification of the Huffman codec (bit_vector.c, huffman_element.c,
huffman_list.c, huffman_tree.c, huffman.c) against its specification.

The C sources are shallowly embedded: files are lists of byte values
(`List Nat`, each element < 256 in every reachable state), `uint64_t`
sizes and offsets are `Nat` (a `u64` landing in a file is stored as its
8 little-endian bytes, i.e. as its value mod 2^64, exactly as the C
`pwrite(&length, 8)` does), pointers that may be `NULL` are `Option`,
and C control paths that crash or read uninitialized memory are
modelled as `Option.none` results, each marked by a comment at the
corresponding place.
-/

namespace Huffman

/-! ## Little-endian integers and positional file access -/

/-- Little-endian byte encoding of `x` on `k` bytes, as written by
`pwrite(fd, &x, k, off)` for a `uint64_t x` on a little-endian host
(the reference implementation's host order). -/
def leBytes : Nat → Nat → List Nat
  | 0, _ => []
  | k + 1, x => x % 256 :: leBytes k (x / 256)

/-- Value of a little-endian byte string, as obtained by `pread` into a
`uint64_t`. -/
def fromLE : List Nat → Nat
  | [] => 0
  | b :: bs => b + 256 * fromLE bs

/-- Positional read of `n` bytes at `off`: `pread` returns fewer than
`n` bytes iff the file ends before `off + n`, which every caller in the
source treats as failure. -/
def readBytes (f : List Nat) (off n : Nat) : Option (List Nat) :=
  if off + n ≤ f.length then some ((f.drop off).take n) else none

/-- First `n` bytes of `l`, zero-padded if `l` is shorter.  Used to
model `realloc` of a byte buffer to `n` bytes: the preserved prefix is
exact; bytes past the old length are uninitialized in C and are
modelled as `0` (no reachable state reads such a byte before writing
it, so only per-bit observations below the append cursor matter). -/
def padTake (n : Nat) (l : List Nat) : List Nat :=
  l.take n ++ List.replicate (n - l.length) 0

/-! ## bit_vector.c -/

/-- `bvector_t`: `vector` is the `uint8_t` storage array, `vector_length`
the capacity in bits, `working_index` the append cursor. -/
structure BVector where
  vector : List Nat
  vector_length : Nat
  working_index : Nat
  deriving DecidableEq, Repr

/-- `VECTOR_FLAG_STREAM` -/
def VECTOR_FLAG_STREAM : Nat := 0

/-- `VECTOR_FLAG_FULL` -/
def VECTOR_FLAG_FULL : Nat := 1

/-- `bvector_create`: fails on `length == 0`; allocates
`length / 8 + 1` zeroed storage bytes ( `calloc` ), cursor 0. -/
def bvector_create (length : Nat) : Option BVector :=
  if length = 0 then none
  else some ⟨List.replicate (length / 8 + 1) 0, length, 0⟩

/-- `bvector_set_bit`: fails if `index >= vector_length`, else ORs
`1 << (index & 7)` into byte `index / 8`. -/
def bvector_set_bit (v : BVector) (index : Nat) : Option BVector :=
  if index ≥ v.vector_length then none
  else some { v with vector := v.vector.set (index / 8) ((v.vector.getD (index / 8) 0) ||| (1 <<< (index % 8))) }

/-- `bvector_clear_bit`: fails if `index >= vector_length`, else ANDs
with `~(1 << (index & 7))`; the result is stored back into a `uint8_t`,
i.e. masked to 8 bits. -/
def bvector_clear_bit (v : BVector) (index : Nat) : Option BVector :=
  if index ≥ v.vector_length then none
  else some { v with vector := v.vector.set (index / 8) ((v.vector.getD (index / 8) 0) &&& (255 ^^^ (1 <<< (index % 8)))) }

/-- `bvector_check_bit`: `-2` when out of range, else `!!(byte & mask)`
(0 or 1).  The `-1` null-pointer case is not modelled (the embedding
passes vectors by value). -/
def bvector_check_bit (v : BVector) (index : Nat) : Int :=
  if index ≥ v.vector_length then -2
  else if (v.vector.getD (index / 8) 0).testBit (index % 8) then 1 else 0

/-- `bvector_get_size`: `FULL` gives capacity, `STREAM` gives the
cursor, any other flag gives 0. -/
def bvector_get_size (v : BVector) (flag : Nat) : Nat :=
  if flag = VECTOR_FLAG_FULL then v.vector_length
  else if flag = VECTOR_FLAG_STREAM then v.working_index
  else 0

/-- `bvector_resize`: sets the capacity and `realloc`s the storage to
`length / 8 + 1` bytes; the cursor is untouched. -/
def bvector_resize (v : BVector) (length : Nat) : BVector :=
  { v with vector_length := length, vector := padTake (length / 8 + 1) v.vector }

/-- Write-and-advance step of `bvector_append_bit`, after the capacity
check: writes the bit at the cursor via clear/set (whose failure the C
ignores — then only the cursor moves) and increments the cursor. -/
def bvector_append_bit_go (v : BVector) (bit : Nat) : Option BVector :=
  match (if bit = 0 then bvector_clear_bit v v.working_index else bvector_set_bit v v.working_index) with
  | some w => some { w with working_index := w.working_index + 1 }
  | none => some { v with working_index := v.working_index + 1 }

/-- `bvector_append_bit`: rejects `bit > 1` with no state change;
doubles the capacity when the cursor has reached it; then writes the
bit and advances the cursor. -/
def bvector_append_bit (v : BVector) (bit : Nat) : Option BVector :=
  if bit > 1 then none
  else
    bvector_append_bit_go
      (if v.working_index = v.vector_length then bvector_resize v (v.vector_length * 2) else v) bit

/-- Conversion of the `int8_t` value returned by `bvector_check_bit`
into the `uint8_t` local `bit` of `bvector_append_vector`. -/
def intToU8 (z : Int) : Nat := (z % 256).toNat

/-- `bvector_append_vector`: appends bits `[0, get_size(copy, flag))`
of `copy_vector` one at a time; the return value of each
`bvector_append_bit` is discarded, so a failed append leaves the
accumulator unchanged. -/
def bvector_append_vector (v copy : BVector) (flag : Nat) : BVector :=
  (List.range (bvector_get_size copy flag)).foldl
    (fun acc i =>
      match bvector_append_bit acc (intToU8 (bvector_check_bit copy i)) with
      | some acc2 => acc2
      | none => acc)
    v

/-- `bvector_output`: writes `get_size(v, flag)` as a `u64` at `offset`,
then `get_size / 8 + 1` raw storage bytes at `offset + 8`, and returns
the next free offset.  Result: (returned offset, header bytes, storage
bytes written).  Short writes are not modelled (every write succeeds);
storage bytes read past the allocated buffer cannot occur in reachable
states and are padded with 0. -/
def bvector_output (v : BVector) (offset : Nat) (flag : Nat) : Int × List Nat × List Nat :=
  let length := bvector_get_size v flag
  (Int.ofNat (offset + 8 + (length / 8 + 1)), leBytes 8 length, padTake (length / 8 + 1) v.vector)

/-- `bvector_input`: reads the `u64` length at `offset`, allocates a
vector of that capacity with the cursor set to it, and reads
`length / 8 + 1` storage bytes at `offset + 8`. -/
def bvector_input (f : List Nat) (offset : Nat) : Option BVector :=
  match readBytes f offset 8 with
  | none => none
  | some hdr =>
    let length := fromLE hdr
    match bvector_create length with
    | none => none
    | some v =>
      match readBytes f (offset + 8) (length / 8 + 1) with
      | none => none
      | some storage => some { v with working_index := length, vector := storage }

/-- `bvector_convert`: creates a vector of capacity `strlen(bit_string)`
(failing on the empty string), appends a bit for each `'0'` (byte 48)
or `'1'` (byte 49) character, silently skipping all others, then
resizes the capacity down to the cursor.  Strings are byte lists, as in
C. -/
def bvector_convert (bit_string : List Nat) : Option BVector :=
  match bvector_create bit_string.length with
  | none => none
  | some t =>
    let t := bit_string.foldl
      (fun acc c =>
        if c = 48 then
          match bvector_append_bit acc 0 with
          | some acc2 => acc2
          | none => acc
        else if c = 49 then
          match bvector_append_bit acc 1 with
          | some acc2 => acc2
          | none => acc
        else acc)
      t
    some (bvector_resize t t.working_index)

/-! ## huffman_element.c / huffman_element.h

`helement_t` carries an element byte, a leaf flag (a 1-bit bitfield), a
frequency, two optional tree children and two optional list neighbours.
The list neighbours are represented by the node's position in a
`List HNode`; the two independent optional child pointers are
represented by four constructors (no child / left only / right only /
both), which keeps every recursion structural. -/

inductive HNode : Type where
  | node0 (element : Nat) (leaf_node : Bool) (frequency : Nat)
  | nodeL (element : Nat) (leaf_node : Bool) (frequency : Nat) (l : HNode)
  | nodeR (element : Nat) (leaf_node : Bool) (frequency : Nat) (r : HNode)
  | node2 (element : Nat) (leaf_node : Bool) (frequency : Nat) (l r : HNode)
  deriving DecidableEq, Repr

namespace HNode

/-- Field `element`. -/
def element : HNode → Nat
  | node0 e _ _ => e
  | nodeL e _ _ _ => e
  | nodeR e _ _ _ => e
  | node2 e _ _ _ _ => e

/-- Field `leaf_node`. -/
def leaf_node : HNode → Bool
  | node0 _ b _ => b
  | nodeL _ b _ _ => b
  | nodeR _ b _ _ => b
  | node2 _ b _ _ _ => b

/-- Field `frequency`. -/
def frequency : HNode → Nat
  | node0 _ _ f => f
  | nodeL _ _ f _ => f
  | nodeR _ _ f _ => f
  | node2 _ _ f _ _ => f

/-- Field `left_child` (a possibly-`NULL` pointer). -/
def left_child : HNode → Option HNode
  | node0 _ _ _ => none
  | nodeL _ _ _ l => some l
  | nodeR _ _ _ _ => none
  | node2 _ _ _ l _ => some l

/-- Field `right_child` (a possibly-`NULL` pointer). -/
def right_child : HNode → Option HNode
  | node0 _ _ _ => none
  | nodeL _ _ _ _ => none
  | nodeR _ _ _ r => some r
  | node2 _ _ _ _ r => some r

/-- Assignment `n->frequency = f`. -/
def withFreq : HNode → Nat → HNode
  | node0 e b _, f => node0 e b f
  | nodeL e b _ l, f => nodeL e b f l
  | nodeR e b _ r, f => nodeR e b f r
  | node2 e b _ l r, f => node2 e b f l r

/-- Assignment `n->left_child = c`. -/
def withLeft : HNode → HNode → HNode
  | node0 e b f, c => nodeL e b f c
  | nodeL e b f _, c => nodeL e b f c
  | nodeR e b f r, c => node2 e b f c r
  | node2 e b f _ r, c => node2 e b f c r

/-- Assignment `n->right_child = c`. -/
def withRight : HNode → HNode → HNode
  | node0 e b f, c => nodeR e b f c
  | nodeL e b f l, c => node2 e b f l c
  | nodeR e b f _, c => nodeR e b f c
  | node2 e b f l _, c => node2 e b f l c

end HNode

/-- `SPECIAL_ELEMENT_FREQUENCY` (0): `helement_create` replaces it by
`DEFAULT_ELEMENT_FREQUENCY` (1). -/
def SPECIAL_ELEMENT_FREQUENCY : Nat := 0

/-- `LIST_SPECIAL_ELEMENT` (0xFF), the internal-node sentinel. -/
def LIST_SPECIAL_ELEMENT : Nat := 255

/-- `helement_create`: a fresh childless node; frequency 0 selects the
default frequency 1.  Allocation failure is not modelled. -/
def helement_create (element : Nat) (leaf_node_flag : Bool) (frequency : Nat) : HNode :=
  HNode.node0 element leaf_node_flag (if frequency = SPECIAL_ELEMENT_FREQUENCY then 1 else frequency)

/-! ## huffman_list.c

The list is its node sequence, head first; `hlist->count` always
equals the length (`_add` adds one, `_remove` subtracts two). -/

/-- `_search`: first node whose `element` matches (the leaf flag is not
consulted). -/
def hlist_search (l : List HNode) (element : Nat) : Option HNode :=
  l.find? (fun n => n.element = element)

/-- `_fix_order` seen from the bubbled node: starting from its position,
the node is swapped with its successor while its frequency is strictly
greater, i.e. the node is inserted into the tail it faced.  `fix_order v
tail` is the list segment from the node's old position onwards. -/
def fix_order (v : HNode) : List HNode → List HNode
  | [] => [v]
  | x :: xs => if v.frequency ≤ x.frequency then v :: x :: xs else x :: fix_order v xs

/-- Increment path of `hlist_add_increment_element`: the first node
whose element matches gets `frequency += 1` and is then re-ordered by
`_fix_order` from its own position. -/
def increment_first (element : Nat) : List HNode → List HNode
  | [] => []
  | x :: xs =>
    if x.element = element then fix_order (x.withFreq (x.frequency + 1)) xs
    else x :: increment_first element xs

/-- `hlist_add_increment_element`: an element equal to the sentinel with
nonzero frequency is "special" and always added fresh as a non-leaf;
otherwise a node found by `_search` is incremented by exactly one
(ignoring the `frequency` argument); otherwise a fresh leaf is added.
New nodes enter at the head (`_add`) and are bubbled by `_fix_order`.
The C returns the affected node; the model returns the new list. -/
def hlist_add_increment_element (l : List HNode) (element frequency : Nat) : List HNode :=
  if (element = LIST_SPECIAL_ELEMENT ∧ frequency ≠ SPECIAL_ELEMENT_FREQUENCY)
      ∨ hlist_search l element = none then
    fix_order
      (helement_create element
        (if element = LIST_SPECIAL_ELEMENT ∧ frequency ≠ SPECIAL_ELEMENT_FREQUENCY then false else true)
        frequency) l
  else increment_first element l

/-- `hlist_count` is the length. -/
def hlist_count (l : List HNode) : Nat := l.length

/-- `hlist_get_two_min`: detaches the first two nodes when there are at
least two; the third becomes the head.  Returns the two nodes and the
remaining list, or an error when `count < 2`. -/
def hlist_get_two_min (l : List HNode) : Option (HNode × HNode × List HNode) :=
  match l with
  | x :: y :: rest => some (x, y, rest)
  | _ => none

/-! ## huffman_tree.c -/

/-- `htree_t`: root pointer, node count, parsed bit. -/
structure HTree where
  root : Option HNode
  count : Nat
  parsed : Bool
  deriving DecidableEq, Repr

/-- `htree_create`. -/
def htree_create : HTree := ⟨none, 0, false⟩

/-- `htree_add_element`: clears the parsed bit; installs the node as
root when the tree is empty (the non-empty branch of the C is an
unimplemented stub that changes nothing). -/
def htree_add_element (t : HTree) (n : HNode) : HTree :=
  if t.root = none then { root := some n, count := t.count + 1, parsed := false }
  else { t with parsed := false }

/-- `htree_count`: the C assigns `htree = NULL` and returns 0
unconditionally. -/
def htree_count (_htree : HTree) : Nat := 0

/-- `htree_connect`: fails when the parent is a leaf; otherwise places
the leaf argument pair as (left, right) when `right_child` is a leaf
and swapped otherwise, overwriting both child pointers of the parent.
Returns the updated parent (the C mutates in place and returns 0). -/
def htree_connect (parent left_child right_child : HNode) : Option HNode :=
  if parent.leaf_node then none
  else if right_child.leaf_node then some ((parent.withLeft left_child).withRight right_child)
  else some ((parent.withLeft right_child).withRight left_child)

/-- `_parse`, table part: pre-order walk guided by the leaf flag; a
leaf stores the accumulated opcode string (bytes 48/49 for '0'/'1')
into the table at its element, overwriting any earlier entry; an
internal node appends 48 before its left subtree and 49 before its
right subtree.  The table is a map from element to opcode string. -/
def parse_table : HNode → List Nat → (Nat → Option (List Nat)) → (Nat → Option (List Nat))
  | .node0 e b _, acc, tb =>
    if b then fun s => if s = e then some acc else tb s else tb
  | .nodeL e b _ l, acc, tb =>
    if b then fun s => if s = e then some acc else tb s
    else parse_table l (acc ++ [48]) tb
  | .nodeR e b _ r, acc, tb =>
    if b then fun s => if s = e then some acc else tb s
    else parse_table r (acc ++ [49]) tb
  | .node2 e b _ l r, acc, tb =>
    if b then fun s => if s = e then some acc else tb s
    else parse_table r (acc ++ [49]) (parse_table l (acc ++ [48]) tb)

/-- `_parse`, count part: `*count += 1` per visited node; children are
visited only below non-leaf nodes. -/
def parse_count : HNode → Nat
  | .node0 _ _ _ => 1
  | .nodeL _ b _ l => if b then 1 else 1 + parse_count l
  | .nodeR _ b _ r => if b then 1 else 1 + parse_count r
  | .node2 _ b _ l r => if b then 1 else 1 + parse_count l + parse_count r

/-- `htree_parse`: fails on a null tree root; otherwise builds the
opcode table from an initially empty table and empty opcode string,
sets the parsed bit and recomputes `count`.  Returns the table and the
updated tree state. -/
def htree_parse (t : HTree) : Option ((Nat → Option (List Nat)) × HTree) :=
  match t.root with
  | none => none
  | some r => some (parse_table r [] (fun _ => none), { t with parsed := true, count := parse_count r })

/-- `_output`: writes the element byte and the leaf-flag byte of each
node in pre-order, recursing into whichever children are present
(regardless of the leaf flag).  The leaf flag is a 1-bit bitfield, so
its byte is 0 or 1. -/
def tree_output_bytes : HNode → List Nat
  | .node0 e b _ => [e, if b then 1 else 0]
  | .nodeL e b _ l => [e, if b then 1 else 0] ++ tree_output_bytes l
  | .nodeR e b _ r => [e, if b then 1 else 0] ++ tree_output_bytes r
  | .node2 e b _ l r => [e, if b then 1 else 0] ++ tree_output_bytes l ++ tree_output_bytes r

/-- `htree_output`: `-2` on an unparsed tree, `-3` on `count < 1`
(checked in that order), with nothing written in either case; otherwise
writes `count` as a `u64` followed by the pre-order node bytes and
returns the next free offset.  A null root on the success path would be
dereferenced by `_output` (unreachable: `count ≥ 1` is only produced by
a parse, which requires a root); it is modelled as `none`.  The `-1`
null-tree case is not modelled. -/
def htree_output (t : HTree) (offset : Nat) : Option (Int × List Nat) :=
  if t.parsed = false then some (-2, [])
  else if t.count < 1 then some (-3, [])
  else
    match t.root with
    | none => none
    | some r =>
      some (Int.ofNat (offset + 8 + (tree_output_bytes r).length), leBytes 8 t.count ++ tree_output_bytes r)

/-- `_input_object`: reads the element byte at file offset `8 + 2k` and
the leaf byte at `8 + 2k + 1`, failing at EOF, and builds a fresh node
with the default frequency (`SPECIAL_ELEMENT_FREQUENCY` is passed).
Assigning the leaf byte to the 1-bit bitfield keeps its low bit. -/
def tree_input_object (f : List Nat) (index : Nat) : Option HNode :=
  match f[8 + 2 * index]?, f[8 + 2 * index + 1]? with
  | some e, some lf => some (helement_create e (lf % 2 = 1) SPECIAL_ELEMENT_FREQUENCY)
  | _, _ => none

/-- `_input`: pre-order reconstruction.  A leaf returns its own index.
A non-leaf reads its left child at `index + 1`, recursively
reconstructs it, reads its right child at the returned left-subtree
last index plus one, and recursively reconstructs that.  On a failed
child read the error `TREE_BAD_COUNT` is returned with the node left
partially filled, exactly as the C mutation leaves it.  The C recursion
terminates because reads run off the end of the file; the fuel
argument is given as `f.length + 1` by the only caller, which the
recursion never exhausts. -/
def tree_input_fill (f : List Nat) : Nat → HNode → Nat → Bool → HNode × Option Nat
  | 0, node, _, _ => (node, none)
  | _ + 1, node, index, true => (node, some index)
  | fuel + 1, node, index, false =>
    match tree_input_object f (index + 1) with
    | none => (node, none)
    | some lc0 =>
      match tree_input_fill f fuel lc0 (index + 1) lc0.leaf_node with
      | (lc, none) => (node.withLeft lc, none)
      | (lc, some lidx) =>
        let node := node.withLeft lc
        match tree_input_object f (lidx + 1) with
        | none => (node, none)
        | some rc0 =>
          match tree_input_fill f fuel rc0 (lidx + 1) rc0.leaf_node with
          | (rc, res) => (node.withRight rc, res)

/-- `htree_input`: reads the `u64` count, reads the root object at
index 0, and runs `_input` on it with the leaf flag forced to
`ROOT_LEAF_FLAG = 0`, ignoring its result (a failed fill leaves the
root as read).  The parsed bit stays at its default 0. -/
def htree_input (f : List Nat) : Option HTree :=
  match readBytes f 0 8 with
  | none => none
  | some cb =>
    match tree_input_object f 0 with
    | none => none
    | some root =>
      some { root := some (tree_input_fill f (f.length + 1) root 0 false).1,
             count := fromLE cb, parsed := false }

/-- `htree_state_step`: descends once from `helement_node` by the
opcode (0 left, 1 right); if the child is a leaf its element is emitted
and the walk restarts at the tree root, else the child is returned with
`-1` emitted.  A null current node and an out-of-range opcode make the
C return `NULL`; descending into an absent child dereferences `NULL`,
and emitting with a rootless tree returns a `NULL` node: all are
modelled as `none` (none is reachable from the decode pipeline). -/
def htree_state_step (t : HTree) (cur : Option HNode) (opcode : Int) : Option (HNode × Int) :=
  match cur with
  | none => none
  | some c =>
    if opcode > 1 ∨ opcode < 0 then none
    else
      match (if opcode = 0 then c.left_child else c.right_child) with
      | none => none
      | some ch =>
        if ch.leaf_node then
          match t.root with
          | some r => some (r, Int.ofNat ch.element)
          | none => none
        else some (ch, -1)

/-! ## huffman.c (the unnamed main file), bit mode

`huffman_encode` / `huffman_decode` are modelled with the `-a` (ASCII)
and `-p` (print) flags unset, which is the packed-bit mode the claims
are about.  The input file is the byte list `B`; the artifact is the
byte list the encoder writes (its writes are contiguous from offset 0:
the tree at 0, the body at the offset `htree_output` returns, which is
exactly the length of the tree bytes). -/

/-- First encoder pass: one `hlist_add_increment_element(list, byte,
SPECIAL_ELEMENT_FREQUENCY)` per input byte, onto a fresh list. -/
def build_distribution (B : List Nat) : List HNode :=
  B.foldl (fun l b => hlist_add_increment_element l b SPECIAL_ELEMENT_FREQUENCY) []

/-- Merge loop of `huffman_encode`: while `hlist_get_two_min` succeeds,
a parent with the combined frequency is added and connected.  In the C
the parent is inserted by `hlist_add_increment_element(list,
LIST_SPECIAL_ELEMENT, combined)`: since every node frequency is at
least 1, `combined ≥ 2 ≠ 0`, so that call always takes the special
path — a fresh childless non-leaf at the head, bubbled by `_fix_order`
— and `htree_connect` then attaches the two minima to that same node
before the list is next observed; the model inserts the connected
parent directly.  When extraction fails the loop exits; the C then
uses the `parent` local, which is uninitialized when the loop never
ran (fewer than two initial nodes) — undefined behaviour, modelled as
`none`.  Fuel: each iteration shortens the list by one, so the initial
length (supplied by `huffman_encode`) suffices. -/
def merge_loop (fuel : Nat) (l : List HNode) (last : Option HNode) : Option HNode :=
  match fuel, hlist_get_two_min l with
  | _, none => last
  | 0, some _ => last
  | fuel + 1, some (x, y, rest) =>
    match htree_connect (helement_create LIST_SPECIAL_ELEMENT false (x.frequency + y.frequency)) x y with
    | none => none
    | some parent => merge_loop fuel (fix_order parent rest) (some parent)

/-- Vector-opcode table of `huffman_encode`: each present ASCII opcode
is converted by `bvector_convert`; a failed conversion aborts the
encode (`ERROR_DEBUG`).  Entries are indexed 0..255. -/
def build_vector_table (table : Nat → Option (List Nat)) : Option (Nat → Option BVector) :=
  if (List.range 256).all (fun i =>
      match table i with
      | none => true
      | some s => (bvector_convert s).isSome) then
    some (fun i => if i < 256 then (table i).bind bvector_convert else none)
  else none

/-- `huffman_encode` in bit mode: frequency pass, merge loop, tree from
the last parent, parse, per-element vector opcodes, second input pass
appending each element's vector in `FULL` mode onto a 1-bit stream
vector, tree written at offset 0, stream vector written at the
returned offset with the `STREAM` flag.  Returns the artifact bytes. -/
def huffman_encode (B : List Nat) : Option (List Nat) :=
  let dist := build_distribution B
  match merge_loop dist.length dist none with
  | none => none
  | some root =>
    let tree := htree_add_element htree_create root
    match htree_parse tree with
    | none => none
    | some (table, tree) =>
      match build_vector_table table with
      | none => none
      | some vtable =>
        match bvector_create 1 with
        | none => none
        | some vec0 =>
          let vec := B.foldl
            (fun acc b =>
              match vtable b with
              | some cv => bvector_append_vector acc cv VECTOR_FLAG_FULL
              | none => acc)
            vec0
          match htree_output tree 0 with
          | none => none
          | some (ret, treeBytes) =>
            if ret < 0 then none
            else
              let out := bvector_output vec ret.toNat VECTOR_FLAG_STREAM
              some (treeBytes ++ out.2.1 ++ out.2.2)

/-- Decode loop of `huffman_decode`: one `htree_state_step` per opcode,
appending the emitted element when it is non-negative.  Returns the
final current node together with the output. -/
def decode_loop (t : HTree) : List Int → Option HNode → List Nat → Option (Option HNode × List Nat)
  | [], cur, out => some (cur, out)
  | b :: rest, cur, out =>
    match htree_state_step t cur b with
    | none => none
    | some (next, el) =>
      decode_loop t rest (some next) (out ++ if el ≥ 0 then [el.toNat] else [])

/-- Opcode sequence of the decoder in bit mode: `bvector_check_bit` at
each index below the `STREAM` size. -/
def decoder_opcodes (v : BVector) : List Int :=
  (List.range (bvector_get_size v VECTOR_FLAG_STREAM)).map (fun i => bvector_check_bit v i)

/-- `huffman_decode` in bit mode: reconstructs the tree, reads the bit
vector at `TREE_INPUT_OBJECT_OFFSET(count) = 8 + 2 * count`, then state
steps through all opcodes from the root, collecting emitted elements,
and succeeds with the collected bytes (no end-of-stream check of the
current node is performed). -/
def huffman_decode (f : List Nat) : Option (List Nat) :=
  match htree_input f with
  | none => none
  | some tree =>
    match bvector_input f (8 + 2 * tree.count) with
    | none => none
    | some vec =>
      match decode_loop tree (decoder_opcodes vec) tree.root [] with
      | none => none
      | some (_, out) => some out

/-! ## Generic lemmas: padded take, little-endian bytes, positional reads -/

/-- Value of bit `i` of a vector's storage (the quantity
`bvector_check_bit` reports for in-range indices). -/
def bvGet (v : BVector) (i : Nat) : Bool :=
  (v.vector.getD (i / 8) 0).testBit (i % 8)

/-- Well-formedness maintained by the `bvector_*` operations: the
storage holds `vector_length / 8 + 1` bytes, the cursor is within the
capacity, and the capacity is positive. -/
def bvWF (v : BVector) : Prop :=
  v.vector.length = v.vector_length / 8 + 1 ∧
  v.working_index ≤ v.vector_length ∧ 1 ≤ v.vector_length

/-- Stream content: the bits below the cursor. -/
def bvBits (v : BVector) : List Bool :=
  (List.range v.working_index).map (bvGet v)

/-- Full content: the bits below the capacity. -/
def fullBits (v : BVector) : List Bool :=
  (List.range v.vector_length).map (bvGet v)

/-- Bits named by a '0'/'1' byte string: 48 contributes `false`, 49
contributes `true`, anything else nothing. -/
def stringBits (s : List Nat) : List Bool :=
  s.filterMap (fun c => if c = 48 then some false else if c = 49 then some true else none)

/-- Ascending frequency order (the list invariant of §3 of the spec). -/
def sortedByFreq (l : List HNode) : Prop :=
  l.Pairwise (fun a b => a.frequency ≤ b.frequency)

/-- Spec-side description of the increment path: the first node whose
element matches gets its frequency incremented by one, in place. -/
def bump_first (element : Nat) : List HNode → List HNode
  | [] => []
  | x :: xs =>
    if x.element = element then x.withFreq (x.frequency + 1) :: xs
    else x :: bump_first element xs

/-- Well-formed tree: the leaf flag is true exactly on childless nodes,
and every internal node has both children (the invariant of §3 of the
spec, maintained by the encoder's build). -/
def wf : HNode → Bool
  | .node0 _ b _ => b
  | .node2 _ b _ l r => !b && wf l && wf r
  | _ => false

/-- Number of nodes reachable through present child pointers. -/
def numNodes : HNode → Nat
  | .node0 _ _ _ => 1
  | .nodeL _ _ _ l => 1 + numNodes l
  | .nodeR _ _ _ r => 1 + numNodes r
  | .node2 _ _ _ l r => 1 + numNodes l + numNodes r

/-- The tree with every frequency replaced by the default 1, which is
what `_input_object` reconstructs (frequencies are not serialized). -/
def defreq : HNode → HNode
  | .node0 e b _ => .node0 e b 1
  | .nodeL e b _ l => .nodeL e b 1 (defreq l)
  | .nodeR e b _ r => .nodeR e b 1 (defreq r)
  | .node2 e b _ l r => .node2 e b 1 (defreq l) (defreq r)

/-- Symbols the parse pass records, in traversal order (leaf flag
guided, like `_parse`). -/
def syms : HNode → List Nat
  | .node0 e b _ => if b then [e] else []
  | .nodeL e b _ l => if b then [e] else syms l
  | .nodeR e b _ r => if b then [e] else syms r
  | .node2 e b _ l r => if b then [e] else syms l ++ syms r

/-- Opcode string (bytes 48/49) the parse pass records for a symbol:
the path from the root to its leaf. -/
def pathTo : HNode → Nat → List Nat
  | .node0 _ _ _, _ => []
  | .nodeL _ b _ l, s => if b then [] else 48 :: pathTo l s
  | .nodeR _ b _ r, s => if b then [] else 49 :: pathTo r s
  | .node2 _ b _ l r, s =>
    if b then [] else if s ∈ syms l then 48 :: pathTo l s else 49 :: pathTo r s

/-- Descent relation: from node `n`, the opcode bits `c` reach a leaf
carrying symbol `s`, passing only through internal nodes (`false`
descends left, `true` right, as in `htree_state_step`). -/
inductive Leads : HNode → List Bool → Nat → Prop where
  | last (n : HNode) (b : Bool) (ch : HNode) (s : Nat) :
      (if b then n.right_child else n.left_child) = some ch →
      ch.leaf_node = true → ch.element = s → Leads n [b] s
  | step (n : HNode) (b : Bool) (m : HNode) (bs : List Bool) (s : Nat) :
      (if b then n.right_child else n.left_child) = some m →
      m.leaf_node = false → Leads m bs s → Leads n (b :: bs) s

/-- Opcode carried by one bit, as produced by `bvector_check_bit` on an
in-range index. -/
def boolToInt (b : Bool) : Int := if b then 1 else 0

/-- Symbols carried by a whole working list. -/
def symsOf (l : List HNode) : List Nat := l.flatMap syms

/-- A concrete five-node artifact whose opcode stream stops after one
descent: count 5, pre-order nodes 255/255/97/98/99 (two internal, three
leaves), stream length 1, storage byte 0 (a single left step). -/
def tfArtifact : List Nat :=
  [5, 0, 0, 0, 0, 0, 0, 0, 255, 0, 255, 0, 97, 1, 98, 1, 99, 1, 1, 0, 0, 0, 0, 0, 0, 0, 0]

/-- The inner internal node of `tfArtifact`'s tree. -/
def tfInner : HNode := HNode.node2 255 false 1 (HNode.node0 97 true 1) (HNode.node0 98 true 1)

/-- The root of `tfArtifact`'s tree. -/
def tfRoot : HNode := HNode.node2 255 false 1 tfInner (HNode.node0 99 true 1)

/-- The tree state `htree_input` reconstructs from `tfArtifact`. -/
def tfTree : HTree := ⟨some tfRoot, 5, false⟩

/-- Storage byte count of `bvector_output` as the spec words it:
`ceil(header / 8) + 1` for a header of `size` bits. -/
def spec_output_storage_bytes (size : Nat) : Nat := (size + 7) / 8 + 1

instance (l : List HNode) : Decidable (sortedByFreq l) :=
  inferInstanceAs (Decidable (List.Pairwise (fun a b : HNode => a.frequency ≤ b.frequency) l))

theorem padTake_length (n : Nat) (l : List Nat) : (padTake n l).length = n := by
  simp only [padTake, List.length_append, List.length_take, List.length_replicate]
  omega

theorem padTake_getD (n : Nat) (l : List Nat) (j : Nat) (hj : j < n) :
    (padTake n l).getD j 0 = l.getD j 0 := by
  simp only [padTake, List.getD_eq_getElem?_getD]
  rcases Nat.lt_or_ge j l.length with h | h
  · have hjt : j < (l.take n).length := by
      simp only [List.length_take]
      omega
    rw [List.getElem?_append_left hjt, List.getElem?_take_of_lt hj, List.getElem?_eq_getElem h]
  · have h1 : ((l.take n ++ List.replicate (n - l.length) 0))[j]? =
        (List.replicate (n - l.length) (0 : Nat))[j - (l.take n).length]? := by
      apply List.getElem?_append_right
      simp only [List.length_take]
      omega
    have h2 : l[j]? = none := by rw [List.getElem?_eq_none_iff]; omega
    rw [h1, h2]
    rcases Nat.lt_or_ge (j - (l.take n).length) (n - l.length) with hr | hr
    · rw [List.getElem?_replicate, if_pos hr]
      rfl
    · have hn : (List.replicate (n - l.length) (0 : Nat))[j - (l.take n).length]? = none := by
        rw [List.getElem?_eq_none_iff]
        simp only [List.length_replicate]
        omega
      simp [hn]

theorem leBytes_length (k x : Nat) : (leBytes k x).length = k := by
  induction k generalizing x with
  | zero => rfl
  | succ k ih => simp [leBytes, ih]

theorem fromLE_leBytes (k x : Nat) : fromLE (leBytes k x) = x % 2 ^ (8 * k) := by
  induction k generalizing x with
  | zero => simp [leBytes, fromLE, Nat.mod_one]
  | succ k ih =>
    have hp : 2 ^ (8 * (k + 1)) = 256 * 2 ^ (8 * k) := by ring
    rw [leBytes, fromLE, ih, hp, Nat.mod_mul]

theorem fromLE_leBytes_of_lt (k x : Nat) (h : x < 2 ^ (8 * k)) :
    fromLE (leBytes k x) = x := by
  rw [fromLE_leBytes, Nat.mod_eq_of_lt h]

theorem readBytes_exact (A B C : List Nat) :
    readBytes (A ++ B ++ C) A.length B.length = some B := by
  simp [readBytes, List.drop_append, List.take_append]

/-! ## Bit-vector lemmas -/

theorem bvector_create_spec (n : Nat) (h : n ≠ 0) :
    bvector_create n = some ⟨List.replicate (n / 8 + 1) 0, n, 0⟩ := by
  simp [bvector_create, h]

theorem bvWF_create (n : Nat) (h : n ≠ 0) :
    bvWF ⟨List.replicate (n / 8 + 1) 0, n, 0⟩ := by
  refine ⟨by simp, by simp, ?_⟩
  show 1 ≤ n
  omega

theorem check_bit_lt (v : BVector) (i : Nat) (h : i < v.vector_length) :
    bvector_check_bit v i = if bvGet v i then 1 else 0 := by
  simp [bvector_check_bit, Nat.not_le.mpr h, bvGet]

theorem bvGet_resize_lt (v : BVector) (n i : Nat) (h : i / 8 < n / 8 + 1) :
    bvGet (bvector_resize v n) i = bvGet v i := by
  simp only [bvGet, bvector_resize]
  rw [padTake_getD _ _ _ h]

/-- Storage update of `bvector_set_bit` and `bvector_clear_bit`, per
bit: only bit `index` changes. -/
theorem testBit_or_shift (b k j : Nat) (hk : k < 8) (hj : j < 8) :
    (b ||| (1 <<< k)).testBit j = (b.testBit j || decide (j = k)) := by
  rw [Nat.one_shiftLeft, Nat.testBit_or, Nat.testBit_two_pow]
  by_cases h : j = k
  · simp [h]
  · have h2 : ¬ (k = j) := fun hh => h hh.symm
    simp [h, h2]

theorem testBit_and_mask (b k j : Nat) (hk : k < 8) (hj : j < 8) :
    (b &&& (255 ^^^ (1 <<< k))).testBit j = (b.testBit j && !decide (j = k)) := by
  rw [Nat.one_shiftLeft, Nat.testBit_and, Nat.testBit_xor, Nat.testBit_two_pow]
  have h255 : (255 : Nat) = 2 ^ 8 - 1 := by norm_num
  rw [h255, Nat.testBit_two_pow_sub_one]
  by_cases h : j = k
  · simp [h, hk]
  · have h2 : ¬ (k = j) := fun hh => h hh.symm
    simp [h, h2, hj]

theorem bvector_set_bit_spec (v : BVector) (i : Nat) (hwf : bvWF v) (hi : i < v.vector_length) :
    ∃ w, bvector_set_bit v i = some w ∧
      w.vector_length = v.vector_length ∧ w.working_index = v.working_index ∧
      w.vector.length = v.vector.length ∧
      ∀ j, bvGet w j = if j = i then true else bvGet v j := by
  obtain ⟨hlen, hcur, hpos⟩ := hwf
  refine ⟨{ v with vector := v.vector.set (i / 8) ((v.vector.getD (i / 8) 0) ||| (1 <<< (i % 8))) },
    ?_, rfl, rfl, by simp, ?_⟩
  · rw [bvector_set_bit, if_neg (Nat.not_le.mpr hi)]
  intro j
  have hib : i / 8 < v.vector.length := by omega
  by_cases hbyte : j / 8 = i / 8
  · have hget : ((v.vector.set (i / 8) ((v.vector.getD (i / 8) 0) ||| (1 <<< (i % 8)))).getD (j / 8) 0)
        = (v.vector.getD (i / 8) 0) ||| (1 <<< (i % 8)) := by
      rw [hbyte, List.getD_eq_getElem?_getD, List.getElem?_set_self hib]
      rfl
    show ((v.vector.set (i / 8) ((v.vector.getD (i / 8) 0) ||| (1 <<< (i % 8)))).getD (j / 8) 0).testBit (j % 8) = _
    rw [hget, testBit_or_shift _ _ _ (Nat.mod_lt _ (by norm_num)) (Nat.mod_lt _ (by norm_num))]
    by_cases hj : j = i
    · simp [bvGet, hj]
    · have hmod : ¬ (j % 8 = i % 8) := by
        intro hm
        exact hj (by omega)
      simp [bvGet, hmod, hj, hbyte]
  · have hget : ((v.vector.set (i / 8) ((v.vector.getD (i / 8) 0) ||| (1 <<< (i % 8)))).getD (j / 8) 0)
        = v.vector.getD (j / 8) 0 := by
      rw [List.getD_eq_getElem?_getD, List.getElem?_set_ne (by omega), List.getD_eq_getElem?_getD]
    have hj : ¬ (j = i) := by
      intro h
      exact hbyte (by rw [h])
    show ((v.vector.set (i / 8) ((v.vector.getD (i / 8) 0) ||| (1 <<< (i % 8)))).getD (j / 8) 0).testBit (j % 8) = _
    rw [hget, if_neg hj]
    rfl

theorem bvector_clear_bit_spec (v : BVector) (i : Nat) (hwf : bvWF v) (hi : i < v.vector_length) :
    ∃ w, bvector_clear_bit v i = some w ∧
      w.vector_length = v.vector_length ∧ w.working_index = v.working_index ∧
      w.vector.length = v.vector.length ∧
      ∀ j, bvGet w j = if j = i then false else bvGet v j := by
  obtain ⟨hlen, hcur, hpos⟩ := hwf
  refine ⟨{ v with vector := v.vector.set (i / 8) ((v.vector.getD (i / 8) 0) &&& (255 ^^^ (1 <<< (i % 8)))) },
    ?_, rfl, rfl, by simp, ?_⟩
  · rw [bvector_clear_bit, if_neg (Nat.not_le.mpr hi)]
  intro j
  have hib : i / 8 < v.vector.length := by omega
  by_cases hbyte : j / 8 = i / 8
  · have hget : ((v.vector.set (i / 8) ((v.vector.getD (i / 8) 0) &&& (255 ^^^ (1 <<< (i % 8))))).getD (j / 8) 0)
        = (v.vector.getD (i / 8) 0) &&& (255 ^^^ (1 <<< (i % 8))) := by
      rw [hbyte, List.getD_eq_getElem?_getD, List.getElem?_set_self hib]
      rfl
    show ((v.vector.set (i / 8) ((v.vector.getD (i / 8) 0) &&& (255 ^^^ (1 <<< (i % 8))))).getD (j / 8) 0).testBit (j % 8) = _
    rw [hget, testBit_and_mask _ _ _ (Nat.mod_lt _ (by norm_num)) (Nat.mod_lt _ (by norm_num))]
    by_cases hj : j = i
    · simp [bvGet, hj]
    · have hmod : ¬ (j % 8 = i % 8) := by
        intro hm
        exact hj (by omega)
      simp [bvGet, hmod, hj, hbyte]
  · have hget : ((v.vector.set (i / 8) ((v.vector.getD (i / 8) 0) &&& (255 ^^^ (1 <<< (i % 8))))).getD (j / 8) 0)
        = v.vector.getD (j / 8) 0 := by
      rw [List.getD_eq_getElem?_getD, List.getElem?_set_ne (by omega), List.getD_eq_getElem?_getD]
    have hj : ¬ (j = i) := by
      intro h
      exact hbyte (by rw [h])
    show ((v.vector.set (i / 8) ((v.vector.getD (i / 8) 0) &&& (255 ^^^ (1 <<< (i % 8))))).getD (j / 8) 0).testBit (j % 8) = _
    rw [hget, if_neg hj]
    rfl

/-- `bvector_append_bit` on a well-formed vector with a valid bit:
succeeds, preserves well-formedness, extends the stream by the bit,
and touches no earlier bit.  The capacity doubles exactly when the
cursor had reached it. -/
theorem bvGet_cursor_irrel (w : BVector) (n j : Nat) :
    bvGet { w with working_index := n } j = bvGet w j := rfl

theorem bvector_append_bit_spec (v : BVector) (b : Nat) (hwf : bvWF v) (hb : b ≤ 1) :
    ∃ w, bvector_append_bit v b = some w ∧ bvWF w ∧
      w.working_index = v.working_index + 1 ∧
      w.vector_length = (if v.working_index = v.vector_length then v.vector_length * 2 else v.vector_length) ∧
      (∀ j, j < v.working_index → bvGet w j = bvGet v j) ∧
      bvGet w v.working_index = decide (b = 1) := by
  obtain ⟨hlen, hcur, hpos⟩ := hwf
  set v1 := if v.working_index = v.vector_length then bvector_resize v (v.vector_length * 2) else v with hv1
  have happ : bvector_append_bit v b = bvector_append_bit_go v1 b := by
    rw [bvector_append_bit, if_neg (by omega)]
  have hv1len : v1.vector.length = v1.vector_length / 8 + 1 := by
    by_cases h : v.working_index = v.vector_length <;>
      simp [hv1, h, bvector_resize, padTake_length, hlen]
  have hv1cur : v1.working_index = v.working_index := by
    by_cases h : v.working_index = v.vector_length <;> simp [hv1, h, bvector_resize]
  have hv1cap : v1.vector_length = (if v.working_index = v.vector_length then v.vector_length * 2 else v.vector_length) := by
    by_cases h : v.working_index = v.vector_length <;> simp [hv1, h, bvector_resize]
  have hv1lt : v.working_index < v1.vector_length := by
    by_cases h : v.working_index = v.vector_length
    · rw [hv1cap, if_pos h]
      omega
    · rw [hv1cap, if_neg h]
      omega
  have hv1get : ∀ j, j / 8 < v.vector.length → bvGet v1 j = bvGet v j := by
    intro j hj
    by_cases h : v.working_index = v.vector_length
    · rw [hv1, if_pos h]
      apply bvGet_resize_lt
      omega
    · rw [hv1, if_neg h]
  have hwf1 : bvWF v1 := ⟨hv1len, by omega, by omega⟩
  have hb2 : b = 0 ∨ b = 1 := by omega
  rcases hb2 with rfl | rfl
  · obtain ⟨w, hw, hwcap, hwcur, hwlen, hwget⟩ := bvector_clear_bit_spec v1 v.working_index hwf1 hv1lt
    refine ⟨{ w with working_index := w.working_index + 1 }, ?_, ?_, ?_, ?_, ?_, ?_⟩
    · rw [happ, bvector_append_bit_go, if_pos rfl, hv1cur, hw]
    · exact ⟨by rw [hwlen, hv1len, hwcap], by simp only [hwcur, hv1cur, hwcap]; omega,
        by simp only [hwcap]; omega⟩
    · simp [hwcur, hv1cur]
    · simp [hwcap, hv1cap]
    · intro j hj
      rw [bvGet_cursor_irrel, hwget j, if_neg (by omega), hv1get j (by omega)]
    · rw [bvGet_cursor_irrel, hwget, if_pos rfl]
      simp
  · obtain ⟨w, hw, hwcap, hwcur, hwlen, hwget⟩ := bvector_set_bit_spec v1 v.working_index hwf1 hv1lt
    refine ⟨{ w with working_index := w.working_index + 1 }, ?_, ?_, ?_, ?_, ?_, ?_⟩
    · rw [happ, bvector_append_bit_go, if_neg (by omega), hv1cur, hw]
    · exact ⟨by rw [hwlen, hv1len, hwcap], by simp only [hwcur, hv1cur, hwcap]; omega,
        by simp only [hwcap]; omega⟩
    · simp [hwcur, hv1cur]
    · simp [hwcap, hv1cap]
    · intro j hj
      rw [bvGet_cursor_irrel, hwget j, if_neg (by omega), hv1get j (by omega)]
    · rw [bvGet_cursor_irrel, hwget, if_pos rfl]
      simp

theorem bvBits_append_bit (v w : BVector) (b : Nat)
    (hcur : w.working_index = v.working_index + 1)
    (hold : ∀ j, j < v.working_index → bvGet w j = bvGet v j)
    (hnew : bvGet w v.working_index = decide (b = 1)) :
    bvBits w = bvBits v ++ [decide (b = 1)] := by
  simp only [bvBits, hcur, List.range_succ, List.map_append, List.map_cons, List.map_nil, hnew]
  congr 1
  apply List.map_congr_left
  intro j hj
  exact hold j (List.mem_range.mp hj)

/-- `bvector_append_vector` in `FULL` mode on well-formed vectors:
appends exactly the full bit content of `copy`. -/
theorem bvector_append_vector_full_spec (v cv : BVector) (hv : bvWF v) (hcv : bvWF cv) :
    bvWF (bvector_append_vector v cv VECTOR_FLAG_FULL) ∧
    bvBits (bvector_append_vector v cv VECTOR_FLAG_FULL) = bvBits v ++ fullBits cv := by
  have hsize : bvector_get_size cv VECTOR_FLAG_FULL = cv.vector_length := by
    simp [bvector_get_size]
  have main : ∀ n, n ≤ cv.vector_length → ∀ u, bvWF u →
      bvWF ((List.range n).foldl
        (fun acc i =>
          match bvector_append_bit acc (intToU8 (bvector_check_bit cv i)) with
          | some acc2 => acc2
          | none => acc) u) ∧
      bvBits ((List.range n).foldl
        (fun acc i =>
          match bvector_append_bit acc (intToU8 (bvector_check_bit cv i)) with
          | some acc2 => acc2
          | none => acc) u) = bvBits u ++ (List.range n).map (bvGet cv) := by
    intro n
    induction n with
    | zero =>
      intro _ u hu
      simp only [List.range_zero, List.foldl_nil]
      exact ⟨hu, by simp⟩
    | succ n ih =>
      intro hn u hu
      obtain ⟨ihwf, ihbits⟩ := ih (by omega) u hu
      set r := (List.range n).foldl
        (fun acc i =>
          match bvector_append_bit acc (intToU8 (bvector_check_bit cv i)) with
          | some acc2 => acc2
          | none => acc) u with hr
      have hbit : intToU8 (bvector_check_bit cv n) = if bvGet cv n then 1 else 0 := by
        rw [check_bit_lt cv n (by omega)]
        by_cases h : bvGet cv n <;> simp [h, intToU8]
      have hble : intToU8 (bvector_check_bit cv n) ≤ 1 := by
        rw [hbit]
        by_cases h : bvGet cv n <;> simp [h]
      obtain ⟨w, hw, hwwf, hwcur, _, hwold, hwnew⟩ :=
        bvector_append_bit_spec r (intToU8 (bvector_check_bit cv n)) ihwf hble
      have hfold : (List.range (n + 1)).foldl
          (fun acc i =>
            match bvector_append_bit acc (intToU8 (bvector_check_bit cv i)) with
            | some acc2 => acc2
            | none => acc) u = w := by
        rw [List.range_succ, List.foldl_append, ← hr]
        simp [hw]
      rw [hfold]
      refine ⟨hwwf, ?_⟩
      have hlast : decide (intToU8 (bvector_check_bit cv n) = 1) = bvGet cv n := by
        rw [hbit]
        by_cases h : bvGet cv n <;> simp [h]
      rw [bvBits_append_bit r w _ hwcur hwold hwnew, hlast, ihbits, List.range_succ]
      simp
  have := main cv.vector_length (Nat.le_refl _) v hv
  rw [bvector_append_vector, hsize]
  exact ⟨this.1, by rw [this.2]; rfl⟩

/-- `bvector_convert` on a nonempty string: the result's capacity and
cursor both equal the number of valid characters, its storage holds
`cursor / 8 + 1` bytes, and its full bit content is exactly the valid
characters in order. -/
theorem bvector_convert_spec (s : List Nat) (hs : s ≠ []) :
    ∃ w, bvector_convert s = some w ∧
      w.vector_length = (stringBits s).length ∧
      w.working_index = (stringBits s).length ∧
      w.vector.length = (stringBits s).length / 8 + 1 ∧
      fullBits w = stringBits s := by
  have hlen0 : s.length ≠ 0 := by
    intro h
    exact hs (List.eq_nil_of_length_eq_zero h)
  have hcreate := bvector_create_spec s.length hlen0
  set v0 : BVector := ⟨List.replicate (s.length / 8 + 1) 0, s.length, 0⟩ with hv0
  have main : ∀ (pre rest : List Nat), s = pre ++ rest → ∀ u, bvWF u →
      u.vector_length = s.length → u.working_index = (stringBits pre).length →
      (∀ j, j < u.working_index → bvGet u j = (stringBits pre).getD j false) →
      (stringBits pre).length ≤ pre.length →
      ∃ r, rest.foldl
        (fun acc c =>
          if c = 48 then
            match bvector_append_bit acc 0 with
            | some acc2 => acc2
            | none => acc
          else if c = 49 then
            match bvector_append_bit acc 1 with
            | some acc2 => acc2
            | none => acc
          else acc) u = r ∧ bvWF r ∧
        r.vector_length = s.length ∧
        r.working_index = (stringBits s).length ∧
        (∀ j, j < r.working_index → bvGet r j = (stringBits s).getD j false) := by
    intro pre rest
    induction rest generalizing pre with
    | nil =>
      intro hsplit u hu hcap hcur hget hble
      refine ⟨u, rfl, hu, hcap, ?_, ?_⟩
      · rw [hcur, hsplit]
        simp
      · intro j hj
        rw [hget j hj, hsplit]
        simp
    | cons c cs ih =>
      intro hsplit u hu hcap hcur hget hble
      have hpremem : pre.length + (c :: cs).length = s.length := by
        rw [hsplit]
        simp
      by_cases h48 : c = 48
      · have hlt : u.working_index < u.vector_length := by
          rw [hcap, hcur]
          have : (stringBits pre).length ≤ pre.length := hble
          simp only [List.length_cons] at hpremem
          omega
        obtain ⟨w, hw, hwwf, hwcur, hwcap, hwold, hwnew⟩ :=
          bvector_append_bit_spec u 0 hu (by omega)
        have hwcap2 : w.vector_length = s.length := by
          rw [hwcap, if_neg (by omega), hcap]
        have hpre2 : stringBits (pre ++ [c]) = stringBits pre ++ [false] := by
          simp [stringBits, h48]
        obtain ⟨r, hrfold, hr⟩ := ih (pre ++ [c]) (by rw [hsplit]; simp) w hwwf hwcap2
          (by rw [hwcur, hcur, hpre2]; simp)
          (by
            intro j hj
            rw [hwcur, hcur] at hj
            rcases Nat.lt_or_ge j (stringBits pre).length with hj2 | hj2
            · rw [hwold j (by omega), hget j (by omega), hpre2]
              rw [List.getD_eq_getElem?_getD, List.getD_eq_getElem?_getD,
                List.getElem?_append_left (by simpa using hj2)]
            · have hje : j = (stringBits pre).length := by omega
              rw [hje, ← hcur, hwnew, hpre2, hcur]
              simp)
          (by
            rw [hpre2]
            simp only [List.length_append, List.length_cons, List.length_nil]
            omega)
        refine ⟨r, ?_, hr⟩
        simpa [h48, hw] using hrfold
      · by_cases h49 : c = 49
        · have hlt : u.working_index < u.vector_length := by
            rw [hcap, hcur]
            simp only [List.length_cons] at hpremem
            omega
          obtain ⟨w, hw, hwwf, hwcur, hwcap, hwold, hwnew⟩ :=
            bvector_append_bit_spec u 1 hu (by omega)
          have hwcap2 : w.vector_length = s.length := by
            rw [hwcap, if_neg (by omega), hcap]
          have hpre2 : stringBits (pre ++ [c]) = stringBits pre ++ [true] := by
            simp [stringBits, h48, h49]
          obtain ⟨r, hrfold, hr⟩ := ih (pre ++ [c]) (by rw [hsplit]; simp) w hwwf hwcap2
            (by rw [hwcur, hcur, hpre2]; simp)
            (by
              intro j hj
              rw [hwcur, hcur] at hj
              rcases Nat.lt_or_ge j (stringBits pre).length with hj2 | hj2
              · rw [hwold j (by omega), hget j (by omega), hpre2]
                rw [List.getD_eq_getElem?_getD, List.getD_eq_getElem?_getD,
                  List.getElem?_append_left (by simpa using hj2)]
              · have hje : j = (stringBits pre).length := by omega
                rw [hje, ← hcur, hwnew, hpre2, hcur]
                simp)
            (by
              rw [hpre2]
              simp only [List.length_append, List.length_cons, List.length_nil]
              omega)
          refine ⟨r, ?_, hr⟩
          simpa [h48, h49, hw] using hrfold
        · have hpre2 : stringBits (pre ++ [c]) = stringBits pre := by
            simp [stringBits, h48, h49]
          obtain ⟨r, hrfold, hr⟩ := ih (pre ++ [c]) (by rw [hsplit]; simp) u hu hcap
            (by rw [hcur, hpre2]) (by rw [hpre2]; exact hget)
            (by rw [hpre2]; simp only [List.length_append, List.length_cons, List.length_nil]; omega)
          refine ⟨r, ?_, hr⟩
          simpa [h48, h49] using hrfold
  have hwf0 : bvWF v0 := bvWF_create s.length hlen0
  obtain ⟨r, hrfold, hrwf, hrcap, hrcur, hrget⟩ := main [] s rfl v0 hwf0 rfl
    (by simp [stringBits]) (by intro j hj; exact absurd hj (by simp)) (by simp [stringBits])
  refine ⟨bvector_resize r r.working_index, ?_, ?_, ?_, ?_, ?_⟩
  · rw [bvector_convert, hcreate]
    simp only [hrfold]
  · simp [bvector_resize, hrcur]
  · simp [bvector_resize, hrcur]
  · simp [bvector_resize, padTake_length, hrcur]
  · have hbits : ∀ j, j < (stringBits s).length →
        bvGet (bvector_resize r r.working_index) j = (stringBits s).getD j false := by
      intro j hj
      rw [bvGet_resize_lt r _ j (by omega), hrget j (by omega)]
    apply List.ext_getElem
    · simp [fullBits, bvector_resize, hrcur]
    · intro j hj1 hj2
      have hj : j < (stringBits s).length := hj2
      have := hbits j hj
      simp only [fullBits] at hj1 ⊢
      rw [List.getElem_map, List.getElem_range]
      rw [List.getD_eq_getElem?_getD, List.getElem?_eq_getElem hj] at this
      simpa using this

/-! ## Frequency-list ordering lemmas -/

theorem fix_order_perm (v : HNode) (l : List HNode) : (fix_order v l).Perm (v :: l) := by
  induction l with
  | nil => exact List.Perm.refl _
  | cons x xs ih =>
    rw [fix_order]
    by_cases h : v.frequency ≤ x.frequency
    · rw [if_pos h]
    · rw [if_neg h]
      exact (ih.cons x).trans (List.Perm.swap v x xs)

theorem fix_order_length (v : HNode) (l : List HNode) :
    (fix_order v l).length = l.length + 1 := by
  have := (fix_order_perm v l).length_eq
  simpa using this

theorem mem_fix_order (v : HNode) (l : List HNode) (z : HNode) :
    z ∈ fix_order v l ↔ z = v ∨ z ∈ l := by
  rw [(fix_order_perm v l).mem_iff]
  simp

theorem fix_order_sorted (v : HNode) (l : List HNode) (h : sortedByFreq l) :
    sortedByFreq (fix_order v l) := by
  induction l with
  | nil => simp [fix_order, sortedByFreq]
  | cons x xs ih =>
    rw [sortedByFreq, List.pairwise_cons] at h
    obtain ⟨hx, hxs⟩ := h
    rw [fix_order]
    by_cases hc : v.frequency ≤ x.frequency
    · rw [if_pos hc]
      rw [sortedByFreq, List.pairwise_cons]
      refine ⟨?_, ?_⟩
      · intro b hb
        rcases List.mem_cons.mp hb with rfl | hb2
        · exact hc
        · exact Nat.le_trans hc (hx b hb2)
      · rw [sortedByFreq] at *
        exact List.pairwise_cons.mpr ⟨hx, hxs⟩
    · rw [if_neg hc]
      rw [sortedByFreq, List.pairwise_cons]
      refine ⟨?_, ih hxs⟩
      intro b hb
      rcases (mem_fix_order v xs b).mp hb with rfl | hb2
      · omega
      · exact hx b hb2

theorem increment_first_perm_bump (e : Nat) (l : List HNode) :
    (increment_first e l).Perm (bump_first e l) := by
  induction l with
  | nil => exact List.Perm.refl _
  | cons x xs ih =>
    rw [increment_first, bump_first]
    by_cases h : x.element = e
    · rw [if_pos h, if_pos h]
      exact fix_order_perm _ _
    · rw [if_neg h, if_neg h]
      exact ih.cons x

theorem mem_increment_first (e : Nat) (l : List HNode) (z : HNode)
    (hz : z ∈ increment_first e l) :
    ∃ y ∈ l, z = y ∨ z = y.withFreq (y.frequency + 1) := by
  induction l with
  | nil => simp [increment_first] at hz
  | cons x xs ih =>
    rw [increment_first] at hz
    by_cases h : x.element = e
    · rw [if_pos h] at hz
      rcases (mem_fix_order _ xs z).mp hz with rfl | hz2
      · exact ⟨x, by simp, Or.inr rfl⟩
      · exact ⟨z, by simp [hz2], Or.inl rfl⟩
    · rw [if_neg h] at hz
      rcases List.mem_cons.mp hz with rfl | hz2
      · exact ⟨z, by simp, Or.inl rfl⟩
      · obtain ⟨y, hy, hyz⟩ := ih hz2
        exact ⟨y, by simp [hy], hyz⟩

theorem withFreq_frequency (n : HNode) (f : Nat) : (n.withFreq f).frequency = f := by
  cases n <;> rfl

theorem increment_first_sorted (e : Nat) (l : List HNode) (h : sortedByFreq l) :
    sortedByFreq (increment_first e l) := by
  induction l with
  | nil => simp [increment_first, sortedByFreq]
  | cons x xs ih =>
    rw [sortedByFreq, List.pairwise_cons] at h
    obtain ⟨hx, hxs⟩ := h
    rw [increment_first]
    by_cases hc : x.element = e
    · rw [if_pos hc]
      exact fix_order_sorted _ _ hxs
    · rw [if_neg hc]
      rw [sortedByFreq, List.pairwise_cons]
      refine ⟨?_, ih hxs⟩
      intro b hb
      obtain ⟨y, hy, hyz⟩ := mem_increment_first e xs b hb
      rcases hyz with h1 | h1
      · rw [h1]
        exact hx y hy
      · rw [h1, withFreq_frequency]
        have := hx y hy
        omega

theorem sorted_head_min (l : List HNode) (h : sortedByFreq l) (x : HNode) (hx : x ∈ l)
    (hd : HNode) (hhd : l.head? = some hd) : hd.frequency ≤ x.frequency := by
  cases l with
  | nil => simp at hx
  | cons a t =>
    rw [List.head?_cons, Option.some_inj] at hhd
    subst hhd
    rw [sortedByFreq, List.pairwise_cons] at h
    rcases List.mem_cons.mp hx with rfl | hx2
    · exact Nat.le_refl _
    · exact h.1 x hx2

/-! ## Tree shape, serialization and reconstruction -/

theorem tree_output_bytes_length (t : HNode) :
    (tree_output_bytes t).length = 2 * numNodes t := by
  induction t with
  | node0 e b f => rfl
  | nodeL e b f l ihl => simp [tree_output_bytes, numNodes, ihl]; omega
  | nodeR e b f r ihr => simp [tree_output_bytes, numNodes, ihr]; omega
  | node2 e b f l r ihl ihr => simp [tree_output_bytes, numNodes, ihl, ihr]; omega

theorem parse_count_eq_numNodes (t : HNode) (h : wf t = true) :
    parse_count t = numNodes t := by
  induction t with
  | node0 e b f => rfl
  | nodeL e b f l ihl => simp [wf] at h
  | nodeR e b f r ihr => simp [wf] at h
  | node2 e b f l r ihl ihr =>
    simp only [wf, Bool.and_eq_true, Bool.not_eq_eq_eq_not, Bool.not_true] at h
    obtain ⟨⟨hb, hl⟩, hr⟩ := h
    simp [parse_count, numNodes, hb, ihl hl, ihr hr]

theorem numNodes_pos (t : HNode) : 1 ≤ numNodes t := by
  cases t <;> simp [numNodes] <;> omega

theorem defreq_output_bytes (t : HNode) :
    tree_output_bytes (defreq t) = tree_output_bytes t := by
  induction t with
  | node0 e b f => rfl
  | nodeL e b f l ihl => simp [tree_output_bytes, defreq, ihl]
  | nodeR e b f r ihr => simp [tree_output_bytes, defreq, ihr]
  | node2 e b f l r ihl ihr => simp [tree_output_bytes, defreq, ihl, ihr]

theorem defreq_wf (t : HNode) : wf (defreq t) = wf t := by
  induction t with
  | node0 e b f => rfl
  | nodeL e b f l ihl => rfl
  | nodeR e b f r ihr => rfl
  | node2 e b f l r ihl ihr => simp [wf, defreq, ihl, ihr]

theorem defreq_element (t : HNode) : (defreq t).element = t.element := by
  cases t <;> rfl

theorem defreq_leaf (t : HNode) : (defreq t).leaf_node = t.leaf_node := by
  cases t <;> rfl

theorem numNodes_defreq (t : HNode) : numNodes (defreq t) = numNodes t := by
  induction t with
  | node0 e b f => rfl
  | nodeL e b f l ihl => simp [numNodes, defreq, ihl]
  | nodeR e b f r ihr => simp [numNodes, defreq, ihr]
  | node2 e b f l r ihl ihr => simp [numNodes, defreq, ihl, ihr]

/-- First serialized pair of a (sub)tree. -/
theorem tree_output_bytes_head (t : HNode) :
    (tree_output_bytes t)[0]? = some t.element ∧
    (tree_output_bytes t)[1]? = some (if t.leaf_node then 1 else 0) := by
  cases t <;> simp [tree_output_bytes, HNode.element, HNode.leaf_node]

/-- Reading the object at index `k` out of a file that carries the
serialized pairs of `t` starting at node index `k` yields the root pair
of `t`, as a fresh childless node with the default frequency. -/
theorem tree_input_object_of_bytes (f : List Nat) (k : Nat) (t : HNode)
    (hbytes : ∀ j, j < (tree_output_bytes t).length →
      f[8 + 2 * k + j]? = (tree_output_bytes t)[j]?) :
    tree_input_object f k = some (HNode.node0 t.element t.leaf_node 1) := by
  obtain ⟨h0, h1⟩ := tree_output_bytes_head t
  have hlen2 : 2 ≤ (tree_output_bytes t).length := by
    have := tree_output_bytes_length t
    have := numNodes_pos t
    omega
  have he : f[8 + 2 * k]? = some t.element := by
    have := hbytes 0 (by omega)
    simpa [h0] using this
  have hl : f[8 + 2 * k + 1]? = some (if t.leaf_node then 1 else 0) := by
    have := hbytes 1 (by omega)
    simpa [h1] using this
  rw [tree_input_object, he, hl]
  by_cases h : t.leaf_node <;> simp [h, helement_create, SPECIAL_ELEMENT_FREQUENCY]

/-- Core reconstruction lemma: `_input`, run at node index `k` on the
already-read root pair of a well-formed subtree `t` whose serialized
pairs occupy indices `k ..= k + numNodes t - 1` of the file, rebuilds
exactly `t` up to default frequencies, and returns the last index of
the subtree. -/
theorem tree_input_fill_spec (t : HNode) (hwf : wf t = true) :
    ∀ (f : List Nat) (k fuel : Nat), numNodes t ≤ fuel →
    (∀ j, j < (tree_output_bytes t).length →
      f[8 + 2 * k + j]? = (tree_output_bytes t)[j]?) →
    tree_input_fill f fuel (HNode.node0 t.element t.leaf_node 1) k t.leaf_node
      = (defreq t, some (k + numNodes t - 1)) := by
  induction t with
  | node0 e b f0 =>
    intro f k fuel hfuel hbytes
    have hb : b = true := by simpa [wf] using hwf
    subst hb
    cases fuel with
    | zero => simp [numNodes] at hfuel
    | succ fuel => simp [tree_input_fill, HNode.element, HNode.leaf_node, defreq, numNodes]
  | nodeL e b f0 l ihl => simp [wf] at hwf
  | nodeR e b f0 r ihr => simp [wf] at hwf
  | node2 e b f0 l r ihl ihr =>
    intro f k fuel hfuel hbytes
    simp only [wf, Bool.and_eq_true, Bool.not_eq_eq_eq_not, Bool.not_true] at hwf
    obtain ⟨⟨hb, hl⟩, hr⟩ := hwf
    subst hb
    have hout : tree_output_bytes (HNode.node2 e false f0 l r)
        = [e, 0] ++ tree_output_bytes l ++ tree_output_bytes r := by
      simp [tree_output_bytes]
    have hlenl := tree_output_bytes_length l
    have hlenr := tree_output_bytes_length r
    have hlent := tree_output_bytes_length (HNode.node2 e false f0 l r)
    have hnn : numNodes (HNode.node2 e false f0 l r) = 1 + numNodes l + numNodes r := rfl
    have hposl := numNodes_pos l
    have hposr := numNodes_pos r
    -- bytes of the left subtree sit at node indices k+1 ..
    have hbl : ∀ j, j < (tree_output_bytes l).length →
        f[8 + 2 * (k + 1) + j]? = (tree_output_bytes l)[j]? := by
      intro j hj
      have h1 := hbytes (2 + j) (by rw [hlent]; omega)
      rw [hout] at h1
      have : ([e, 0] ++ tree_output_bytes l ++ tree_output_bytes r)[2 + j]?
          = (tree_output_bytes l)[j]? := by
        rw [List.append_assoc, List.getElem?_append_right (by simp)]
        simp only [List.length_cons, List.length_nil]
        rw [List.getElem?_append_left (by omega)]
        congr 1
        omega
      rw [this] at h1
      rw [show 8 + 2 * (k + 1) + j = 8 + 2 * k + (2 + j) by omega]
      exact h1
    -- bytes of the right subtree sit at node indices k+1+numNodes l ..
    have hbr : ∀ j, j < (tree_output_bytes r).length →
        f[8 + 2 * (k + numNodes l + 1) + j]? = (tree_output_bytes r)[j]? := by
      intro j hj
      have h1 := hbytes (2 + 2 * numNodes l + j) (by rw [hlent]; omega)
      rw [hout] at h1
      have : ([e, 0] ++ tree_output_bytes l ++ tree_output_bytes r)[2 + 2 * numNodes l + j]?
          = (tree_output_bytes r)[j]? := by
        rw [List.getElem?_append_right (by simp; omega)]
        congr 1
        simp only [List.length_append, List.length_cons, List.length_nil]
        omega
      rw [this] at h1
      rw [show 8 + 2 * (k + numNodes l + 1) + j = 8 + 2 * k + (2 + 2 * numNodes l + j) by omega]
      exact h1
    cases fuel with
    | zero =>
      rw [hnn] at hfuel
      omega
    | succ fuel =>
      have hfl : numNodes l ≤ fuel := by rw [hnn] at hfuel; omega
      have hfr : numNodes r ≤ fuel := by rw [hnn] at hfuel; omega
      have hreadl := tree_input_object_of_bytes f (k + 1) l hbl
      have hfilll := ihl hl f (k + 1) fuel hfl hbl
      have hreadr := tree_input_object_of_bytes f (k + numNodes l + 1) r hbr
      have hfillr := ihr hr f (k + numNodes l + 1) fuel hfr hbr
      have hlproj : (HNode.node0 l.element l.leaf_node 1).leaf_node = l.leaf_node := rfl
      have hrproj : (HNode.node0 r.element r.leaf_node 1).leaf_node = r.leaf_node := rfl
      simp only [tree_input_fill, hreadl, hlproj, hfilll,
        show k + 1 + numNodes l - 1 + 1 = k + numNodes l + 1 from by omega,
        hreadr, hrproj, hfillr]
      simp only [HNode.withLeft, HNode.withRight, defreq, numNodes,
        Prod.mk.injEq, Option.some_inj]
      refine ⟨rfl, ?_⟩
      omega

theorem readBytes_prefix (B C : List Nat) : readBytes (B ++ C) 0 B.length = some B := by
  have := readBytes_exact [] B C
  simpa using this

theorem getElem_shift_8 (hdr body : List Nat) (hlen : hdr.length = 8) (j : Nat)
    (hj : j < body.length) : (hdr ++ body)[8 + j]? = body[j]? := by
  rw [List.getElem?_append_right (by omega)]
  congr 1
  omega

/-- `htree_input` on a file whose count header is followed by the
serialized pairs of a well-formed tree with a non-leaf root (and
anything after them): reconstructs the tree up to default frequencies
and records the count value read. -/
theorem htree_input_spec_internal (t : HNode) (hwf : wf t = true)
    (hleaf : t.leaf_node = false) (c : Nat) (rest : List Nat) :
    htree_input (leBytes 8 c ++ tree_output_bytes t ++ rest)
      = some ⟨some (defreq t), c % 2 ^ 64, false⟩ := by
  set f := leBytes 8 c ++ tree_output_bytes t ++ rest with hf
  have hhdr : (leBytes 8 c).length = 8 := leBytes_length 8 c
  have hflen : f.length = 8 + (tree_output_bytes t).length + rest.length := by
    simp [hf, hhdr]
    omega
  have hread : readBytes f 0 8 = some (leBytes 8 c) := by
    rw [hf, List.append_assoc, ← hhdr]
    exact readBytes_prefix _ _
  have hbytes : ∀ j, j < (tree_output_bytes t).length →
      f[8 + 2 * 0 + j]? = (tree_output_bytes t)[j]? := by
    intro j hj
    rw [hf, List.append_assoc]
    rw [show 8 + 2 * 0 + j = 8 + j by omega]
    rw [getElem_shift_8 _ _ hhdr j (by simp; omega)]
    rw [List.getElem?_append_left hj]
  have hobj := tree_input_object_of_bytes f 0 t hbytes
  have hfuel : numNodes t ≤ f.length + 1 := by
    have := tree_output_bytes_length t
    omega
  have hfill := tree_input_fill_spec t hwf f 0 (f.length + 1) hfuel hbytes
  rw [hleaf] at hfill
  rw [htree_input, hread, hobj, hleaf]
  simp only [hfill]
  rw [fromLE_leBytes]

/-- `htree_input` on the serialized form of a single-leaf tree: the
recursive fill (whose root leaf flag is forced to 0) fails to read a
left child at EOF and the error is ignored, leaving the root exactly as
read. -/
theorem htree_input_spec_leaf (e f0 c : Nat) :
    htree_input (leBytes 8 c ++ tree_output_bytes (HNode.node0 e true f0))
      = some ⟨some (HNode.node0 e true 1), c % 2 ^ 64, false⟩ := by
  set f := leBytes 8 c ++ tree_output_bytes (HNode.node0 e true f0) with hf
  have hhdr : (leBytes 8 c).length = 8 := leBytes_length 8 c
  have hout : tree_output_bytes (HNode.node0 e true f0) = [e, 1] := rfl
  have hflen : f.length = 10 := by
    simp [hf, hhdr, hout]
  have hread : readBytes f 0 8 = some (leBytes 8 c) := by
    rw [hf, ← hhdr]
    exact readBytes_prefix _ _
  have hbytes : ∀ j, j < (tree_output_bytes (HNode.node0 e true f0)).length →
      f[8 + 2 * 0 + j]? = (tree_output_bytes (HNode.node0 e true f0))[j]? := by
    intro j hj
    rw [hf]
    rw [show 8 + 2 * 0 + j = 8 + j by omega]
    exact getElem_shift_8 _ _ hhdr j hj
  have hobj := tree_input_object_of_bytes f 0 (HNode.node0 e true f0) hbytes
  have hnone : tree_input_object f 1 = none := by
    have h10 : f[10]? = none := by
      rw [List.getElem?_eq_none_iff, hflen]
    rw [tree_input_object]
    rw [show 8 + 2 * 1 = 10 by omega, h10]
  rw [htree_input, hread, hobj]
  rw [show f.length + 1 = 10 + 1 from by omega]
  simp only [tree_input_fill, hnone]
  rw [fromLE_leBytes]
  norm_num
  exact ⟨rfl, rfl⟩

/-! ## Opcode table characterization and tree descent -/

/-- `_parse` writes exactly the root-to-leaf paths: on a well-formed
tree with distinct leaf symbols, the table maps each tree symbol `s`
to the accumulated prefix followed by its path, and leaves every other
entry untouched. -/
theorem parse_table_spec (t : HNode) (hwf : wf t = true) (hnd : (syms t).Nodup) :
    ∀ (acc : List Nat) (tb : Nat → Option (List Nat)) (s : Nat),
    parse_table t acc tb s = if s ∈ syms t then some (acc ++ pathTo t s) else tb s := by
  induction t with
  | node0 e b f =>
    intro acc tb s
    have hb : b = true := by simpa [wf] using hwf
    subst hb
    rw [parse_table, if_pos rfl]
    simp only [syms, if_pos rfl, pathTo, List.mem_singleton]
    by_cases h : s = e <;> simp [h]
  | nodeL e b f l ihl => simp [wf] at hwf
  | nodeR e b f r ihr => simp [wf] at hwf
  | node2 e b f l r ihl ihr =>
    intro acc tb s
    simp only [wf, Bool.and_eq_true, Bool.not_eq_eq_eq_not, Bool.not_true] at hwf
    obtain ⟨⟨hb, hl⟩, hr⟩ := hwf
    subst hb
    have hsy : syms (HNode.node2 e false f l r) = syms l ++ syms r := by
      simp [syms]
    rw [hsy] at hnd
    have hndl : (syms l).Nodup := hnd.of_append_left
    have hndr : (syms r).Nodup := hnd.of_append_right
    have hdisj : (syms l).Disjoint (syms r) := (List.nodup_append.mp hnd).2.2
    rw [parse_table]
    rw [if_neg (by simp)]
    rw [ihr hr hndr, ihl hl hndl]
    by_cases hsr : s ∈ syms r
    · have hsl : s ∉ syms l := fun h2 => hdisj h2 hsr
      rw [if_pos hsr, hsy, if_pos (by simp [hsr]), pathTo, if_neg (by simp), if_neg hsl]
      simp
    · rw [if_neg hsr]
      by_cases hsl : s ∈ syms l
      · rw [if_pos hsl, hsy, if_pos (by simp [hsl]), pathTo, if_neg (by simp), if_pos hsl]
        simp
      · rw [if_neg hsl, hsy, if_neg (by simp [hsl, hsr])]

theorem pathTo_chars (t : HNode) (s : Nat) : ∀ c ∈ pathTo t s, c = 48 ∨ c = 49 := by
  induction t with
  | node0 e b f => simp [pathTo]
  | nodeL e b f l ihl =>
    intro c hc
    rw [pathTo] at hc
    by_cases hb : b
    · simp [hb] at hc
    · simp only [hb, if_false] at hc
      rcases List.mem_cons.mp hc with rfl | hc2
      · exact Or.inl rfl
      · exact ihl c hc2
  | nodeR e b f r ihr =>
    intro c hc
    rw [pathTo] at hc
    by_cases hb : b
    · simp [hb] at hc
    · simp only [hb, if_false] at hc
      rcases List.mem_cons.mp hc with rfl | hc2
      · exact Or.inr rfl
      · exact ihr c hc2
  | node2 e b f l r ihl ihr =>
    intro c hc
    rw [pathTo] at hc
    by_cases hb : b
    · simp [hb] at hc
    · simp only [hb, if_false] at hc
      by_cases hm : s ∈ syms l
      · rw [if_pos hm] at hc
        rcases List.mem_cons.mp hc with rfl | hc2
        · exact Or.inl rfl
        · exact ihl c hc2
      · rw [if_neg hm] at hc
        rcases List.mem_cons.mp hc with rfl | hc2
        · exact Or.inr rfl
        · exact ihr c hc2

theorem stringBits_all_valid (p : List Nat) (h : ∀ c ∈ p, c = 48 ∨ c = 49) :
    (stringBits p).length = p.length := by
  induction p with
  | nil => rfl
  | cons c cs ih =>
    have hcs := ih (fun x hx => h x (by simp [hx]))
    rcases h c (by simp) with rfl | rfl
    · have hstep : stringBits (48 :: cs) = false :: stringBits cs := rfl
      rw [hstep]
      simp [hcs]
    · have hstep : stringBits (49 :: cs) = true :: stringBits cs := rfl
      rw [hstep]
      simp [hcs]

theorem pathTo_length_le (t : HNode) (s : Nat) : (pathTo t s).length ≤ numNodes t := by
  induction t with
  | node0 e b f => simp [pathTo, numNodes]
  | nodeL e b f l ihl =>
    rw [pathTo, numNodes]
    by_cases hb : b
    · simp [hb]
    · simp only [hb, Bool.false_eq_true, if_false, List.length_cons]
      omega
  | nodeR e b f r ihr =>
    rw [pathTo, numNodes]
    by_cases hb : b
    · simp [hb]
    · simp only [hb, Bool.false_eq_true, if_false, List.length_cons]
      omega
  | node2 e b f l r ihl ihr =>
    rw [pathTo, numNodes]
    by_cases hb : b
    · simp [hb]
    · by_cases hm : s ∈ syms l
      · simp only [hb, Bool.false_eq_true, if_false, hm, if_true, List.length_cons]
        omega
      · simp only [hb, Bool.false_eq_true, if_false, hm, List.length_cons]
        omega

theorem defreq_syms (t : HNode) : syms (defreq t) = syms t := by
  induction t with
  | node0 e b f => rfl
  | nodeL e b f l ihl => simp [syms, defreq, ihl]
  | nodeR e b f r ihr => simp [syms, defreq, ihr]
  | node2 e b f l r ihl ihr => simp [syms, defreq, ihl, ihr]

theorem defreq_pathTo (t : HNode) (s : Nat) : pathTo (defreq t) s = pathTo t s := by
  induction t with
  | node0 e b f => rfl
  | nodeL e b f l ihl => simp [pathTo, defreq, ihl]
  | nodeR e b f r ihr => simp [pathTo, defreq, ihr]
  | node2 e b f l r ihl ihr => simp [pathTo, defreq, defreq_syms, ihl, ihr]

/-- A well-formed node flagged as a leaf is childless with a singleton
symbol list. -/
theorem wf_leaf_shape (t : HNode) (hwf : wf t = true) (hb : t.leaf_node = true) :
    ∃ e f, t = HNode.node0 e true f ∧ syms t = [e] := by
  cases t with
  | node0 e b f =>
    have : b = true := hb
    subst this
    exact ⟨e, f, rfl, by simp [syms]⟩
  | nodeL e b f l => simp [wf] at hwf
  | nodeR e b f r => simp [wf] at hwf
  | node2 e b f l r =>
    simp only [wf, Bool.and_eq_true, Bool.not_eq_eq_eq_not, Bool.not_true] at hwf
    have : b = false := hwf.1.1
    rw [HNode.leaf_node] at hb
    rw [this] at hb
    cases hb

/-- Walking a well-formed internal tree along a symbol's path reaches
that symbol's leaf. -/
theorem pathTo_leads (t : HNode) (hwf : wf t = true) (hleaf : t.leaf_node = false)
    (s : Nat) (hs : s ∈ syms t) : Leads t (stringBits (pathTo t s)) s := by
  induction t with
  | node0 e b f =>
    have : b = false := hleaf
    subst this
    simp [syms] at hs
  | nodeL e b f l ihl => simp [wf] at hwf
  | nodeR e b f r ihr => simp [wf] at hwf
  | node2 e b f l r ihl ihr =>
    simp only [wf, Bool.and_eq_true, Bool.not_eq_eq_eq_not, Bool.not_true] at hwf
    obtain ⟨⟨hb, hl⟩, hr⟩ := hwf
    subst hb
    have hsy : s ∈ syms l ++ syms r := by simpa [syms] using hs
    by_cases hm : s ∈ syms l
    · rw [pathTo, if_neg (by simp), if_pos hm]
      have hbits : stringBits (48 :: pathTo l s) = false :: stringBits (pathTo l s) := by
        simp [stringBits]
      rw [hbits]
      have hchild : (if false then (HNode.node2 e false f l r).right_child
          else (HNode.node2 e false f l r).left_child) = some l := by
        simp [HNode.left_child]
      by_cases hlf : l.leaf_node
      · obtain ⟨e2, f2, rfl, hsyms⟩ := wf_leaf_shape l hl hlf
        have hse : s = e2 := by simpa [hsyms] using hm
        have hpath : pathTo (HNode.node0 e2 true f2) s = [] := rfl
        rw [hpath]
        exact Leads.last _ false _ s hchild hlf (by rw [HNode.element, hse])
      · have hlf2 : l.leaf_node = false := by
          rw [← Bool.not_eq_true]
          exact hlf
        exact Leads.step _ false l _ s hchild hlf2 (ihl hl hlf2 hm)
    · have hmr : s ∈ syms r := by
        rcases List.mem_append.mp hsy with h2 | h2
        · exact absurd h2 hm
        · exact h2
      rw [pathTo, if_neg (by simp), if_neg hm]
      have hbits : stringBits (49 :: pathTo r s) = true :: stringBits (pathTo r s) := by
        simp [stringBits]
      rw [hbits]
      have hchild : (if true then (HNode.node2 e false f l r).right_child
          else (HNode.node2 e false f l r).left_child) = some r := by
        simp [HNode.right_child]
      by_cases hrf : r.leaf_node
      · obtain ⟨e2, f2, rfl, hsyms⟩ := wf_leaf_shape r hr hrf
        have hse : s = e2 := by simpa [hsyms] using hmr
        have hpath : pathTo (HNode.node0 e2 true f2) s = [] := rfl
        rw [hpath]
        exact Leads.last _ true _ s hchild hrf (by rw [HNode.element, hse])
      · have hrf2 : r.leaf_node = false := by
          simp [hrf]
        exact Leads.step _ true r _ s hchild hrf2 (ihr hr hrf2 hmr)

/-! ## Decoder consumption lemmas -/

theorem decoder_opcodes_eq (v : BVector) (h : v.working_index ≤ v.vector_length) :
    decoder_opcodes v = (bvBits v).map boolToInt := by
  rw [decoder_opcodes, bvBits, List.map_map]
  have hsize : bvector_get_size v VECTOR_FLAG_STREAM = v.working_index := by
    simp [bvector_get_size, VECTOR_FLAG_STREAM, VECTOR_FLAG_FULL]
  rw [hsize]
  apply List.map_congr_left
  intro i hi
  have hlt : i < v.vector_length := lt_of_lt_of_le (List.mem_range.mp hi) h
  rw [Function.comp_apply, check_bit_lt v i hlt]
  by_cases hb : bvGet v i <;> simp [hb, boolToInt]

/-- One full symbol consumption: state stepping a tree from node `n`
through the path bits of a symbol emits exactly that symbol and puts
the walk back at the root. -/
theorem decode_loop_leads (t : HTree) (r : HNode) (hroot : t.root = some r) :
    ∀ (n : HNode) (c : List Bool) (s : Nat), Leads n c s →
    ∀ (bits : List Int) (out : List Nat),
      decode_loop t (c.map boolToInt ++ bits) (some n) out
        = decode_loop t bits (some r) (out ++ [s]) := by
  intro n c s hlead
  induction hlead with
  | last n b ch s hch hlf hel =>
    intro bits out
    have hstep : htree_state_step t (some n) (boolToInt b) = some (r, Int.ofNat ch.element) := by
      rw [htree_state_step]
      have hrange : ¬ (boolToInt b > 1 ∨ boolToInt b < 0) := by
        cases b <;> simp [boolToInt]
      rw [if_neg hrange]
      have hsel : (if boolToInt b = 0 then n.left_child else n.right_child)
          = (if b then n.right_child else n.left_child) := by
        cases b <;> simp [boolToInt]
      rw [hsel, hch]
      simp only [hlf, if_pos, hroot]
    have htn : (Int.ofNat ch.element).toNat = s := by
      rw [← hel]
      rfl
    simp only [List.map_cons, List.map_nil, List.nil_append, List.cons_append,
      decode_loop, hstep]
    rw [if_pos (by exact Int.ofNat_nonneg ch.element), htn]
    rfl
  | step n b m bs s hch hlf _ ih =>
    intro bits out
    have hstep : htree_state_step t (some n) (boolToInt b) = some (m, -1) := by
      rw [htree_state_step]
      have hrange : ¬ (boolToInt b > 1 ∨ boolToInt b < 0) := by
        cases b <;> simp [boolToInt]
      rw [if_neg hrange]
      have hsel : (if boolToInt b = 0 then n.left_child else n.right_child)
          = (if b then n.right_child else n.left_child) := by
        cases b <;> simp [boolToInt]
      rw [hsel, hch]
      simp [hlf]
    simp only [List.map_cons, List.cons_append, decode_loop, hstep]
    have hneg : ¬ ((-1 : Int) ≥ 0) := by norm_num
    rw [if_neg hneg, List.append_nil]
    exact ih bits out

/-- Decoding the concatenated path bits of a symbol sequence from the
root yields exactly that sequence, ending back at the root. -/
theorem decode_loop_flat (t : HTree) (r : HNode) (hroot : t.root = some r)
    (code : Nat → List Bool) :
    ∀ (B : List Nat), (∀ b ∈ B, Leads r (code b) b) → ∀ (out : List Nat),
    decode_loop t ((B.flatMap code).map boolToInt) (some r) out
      = some (some r, out ++ B) := by
  intro B
  induction B with
  | nil =>
    intro _ out
    simp [decode_loop]
  | cons b bs ih =>
    intro hall out
    have hb := hall b (by simp)
    rw [List.flatMap_cons, List.map_append,
      decode_loop_leads t r hroot r (code b) b hb _ out,
      ih (fun x hx => hall x (by simp [hx])) (out ++ [b])]
    simp

/-! ## Distribution-pass and merge-loop invariants -/

theorem withFreq_wf (n : HNode) (f : Nat) : wf (n.withFreq f) = wf n := by
  cases n <;> rfl

theorem withFreq_element (n : HNode) (f : Nat) : (n.withFreq f).element = n.element := by
  cases n <;> rfl

theorem withFreq_leaf (n : HNode) (f : Nat) : (n.withFreq f).leaf_node = n.leaf_node := by
  cases n <;> rfl

theorem map_element_bump_first (e : Nat) (l : List HNode) :
    (bump_first e l).map HNode.element = l.map HNode.element := by
  induction l with
  | nil => rfl
  | cons x xs ih =>
    rw [bump_first]
    by_cases h : x.element = e
    · rw [if_pos h]
      simp [withFreq_element]
    · rw [if_neg h]
      simp [ih]

theorem map_element_increment_first (e : Nat) (l : List HNode) :
    ((increment_first e l).map HNode.element).Perm (l.map HNode.element) := by
  have h1 := (increment_first_perm_bump e l).map HNode.element
  rw [map_element_bump_first] at h1
  exact h1

theorem hlist_search_none (l : List HNode) (e : Nat) :
    hlist_search l e = none ↔ ∀ n ∈ l, n.element ≠ e := by
  rw [hlist_search, List.find?_eq_none]
  constructor
  · intro h n hn
    have := h n hn
    simpa using this
  · intro h n hn
    simpa using h n hn

/-- Invariant of the first encoder pass: all nodes are well-formed
leaves with positive frequency, the elements are distinct, and they
are exactly the bytes of the processed input. -/
theorem build_distribution_invariant (B : List Nat) :
    (∀ n ∈ build_distribution B, wf n = true ∧ n.leaf_node = true ∧ 1 ≤ n.frequency) ∧
    ((build_distribution B).map HNode.element).Nodup ∧
    (∀ s, s ∈ (build_distribution B).map HNode.element ↔ s ∈ B) := by
  have step : ∀ (l : List HNode) (b : Nat),
      (∀ n ∈ l, wf n = true ∧ n.leaf_node = true ∧ 1 ≤ n.frequency) →
      (l.map HNode.element).Nodup →
      (∀ n ∈ hlist_add_increment_element l b SPECIAL_ELEMENT_FREQUENCY,
        wf n = true ∧ n.leaf_node = true ∧ 1 ≤ n.frequency) ∧
      ((hlist_add_increment_element l b SPECIAL_ELEMENT_FREQUENCY).map HNode.element).Nodup ∧
      (∀ s, s ∈ (hlist_add_increment_element l b SPECIAL_ELEMENT_FREQUENCY).map HNode.element
        ↔ s = b ∨ s ∈ l.map HNode.element) := by
    intro l b hinv hnd
    have hnsp : ¬ (b = LIST_SPECIAL_ELEMENT ∧ SPECIAL_ELEMENT_FREQUENCY ≠ SPECIAL_ELEMENT_FREQUENCY) := by
      intro h
      exact h.2 rfl
    by_cases hsearch : hlist_search l b = none
    · have hcond : (b = LIST_SPECIAL_ELEMENT ∧ SPECIAL_ELEMENT_FREQUENCY ≠ SPECIAL_ELEMENT_FREQUENCY)
          ∨ hlist_search l b = none := Or.inr hsearch
      rw [hlist_add_increment_element, if_pos hcond, if_neg hnsp]
      have hnew : helement_create b true SPECIAL_ELEMENT_FREQUENCY = HNode.node0 b true 1 := rfl
      rw [hnew]
      have hperm := fix_order_perm (HNode.node0 b true 1) l
      have hmape := hperm.map HNode.element
      have hnotin : b ∉ l.map HNode.element := by
        intro hb
        obtain ⟨n, hn, hne⟩ := List.mem_map.mp hb
        exact ((hlist_search_none l b).mp hsearch n hn) hne
      refine ⟨?_, ?_, ?_⟩
      · intro n hn
        rcases (mem_fix_order _ l n).mp hn with rfl | hn2
        · exact ⟨rfl, rfl, by simp [HNode.frequency]⟩
        · exact hinv n hn2
      · apply hmape.nodup_iff.mpr
        simpa [HNode.element] using List.Nodup.cons hnotin hnd
      · intro s
        rw [hmape.mem_iff]
        simp [HNode.element, eq_comm]
    · have hcond : ¬ ((b = LIST_SPECIAL_ELEMENT ∧ SPECIAL_ELEMENT_FREQUENCY ≠ SPECIAL_ELEMENT_FREQUENCY)
          ∨ hlist_search l b = none) := by
        intro h
        rcases h with h | h
        · exact hnsp h
        · exact hsearch h
      rw [hlist_add_increment_element, if_neg hcond]
      have hbin : b ∈ l.map HNode.element := by
        rcases hfind : hlist_search l b with _ | n
        · exact absurd hfind hsearch
        · have hmem := List.mem_of_find?_eq_some hfind
          have hprop := List.find?_some hfind
          have : n.element = b := by simpa using hprop
          exact List.mem_map.mpr ⟨n, hmem, this⟩
      have hmape := map_element_increment_first b l
      refine ⟨?_, ?_, ?_⟩
      · intro n hn
        obtain ⟨y, hy, hyz⟩ := mem_increment_first b l n hn
        obtain ⟨hwfy, hlfy, hfy⟩ := hinv y hy
        rcases hyz with rfl | rfl
        · exact ⟨hwfy, hlfy, hfy⟩
        · exact ⟨by rw [withFreq_wf]; exact hwfy, by rw [withFreq_leaf]; exact hlfy,
            by rw [withFreq_frequency]; omega⟩
      · exact hmape.nodup_iff.mpr hnd
      · intro s
        rw [hmape.mem_iff]
        constructor
        · intro h
          exact Or.inr h
        · intro h
          rcases h with rfl | h
          · exact hbin
          · exact h
  have main : ∀ (B2 : List Nat) (l : List HNode),
      (∀ n ∈ l, wf n = true ∧ n.leaf_node = true ∧ 1 ≤ n.frequency) →
      (l.map HNode.element).Nodup →
      (∀ n ∈ B2.foldl (fun acc b => hlist_add_increment_element acc b SPECIAL_ELEMENT_FREQUENCY) l,
        wf n = true ∧ n.leaf_node = true ∧ 1 ≤ n.frequency) ∧
      ((B2.foldl (fun acc b => hlist_add_increment_element acc b SPECIAL_ELEMENT_FREQUENCY) l).map HNode.element).Nodup ∧
      (∀ s, s ∈ (B2.foldl (fun acc b => hlist_add_increment_element acc b SPECIAL_ELEMENT_FREQUENCY) l).map HNode.element
        ↔ s ∈ B2 ∨ s ∈ l.map HNode.element) := by
    intro B2
    induction B2 with
    | nil =>
      intro l hinv hnd
      refine ⟨hinv, hnd, ?_⟩
      intro s
      simp
    | cons b bs ih =>
      intro l hinv hnd
      obtain ⟨h1, h2, h3⟩ := step l b hinv hnd
      obtain ⟨g1, g2, g3⟩ := ih (hlist_add_increment_element l b SPECIAL_ELEMENT_FREQUENCY) h1 h2
      simp only [List.foldl_cons]
      refine ⟨g1, g2, ?_⟩
      intro s
      rw [g3 s, h3 s]
      simp only [List.mem_cons]
      tauto
  have := main B [] (by intro n hn; simp at hn) (by simp)
  rw [build_distribution]
  refine ⟨this.1, this.2.1, ?_⟩
  intro s
  rw [this.2.2 s]
  simp

theorem perm_flatMap_syms (l1 l2 : List HNode) (h : l1.Perm l2) :
    (symsOf l1).Perm (symsOf l2) := by
  rw [symsOf, symsOf]
  induction h with
  | nil => rfl
  | cons x h ih =>
    simp only [List.flatMap_cons]
    exact ih.append_left _
  | swap x y l =>
    simp only [List.flatMap_cons, ← List.append_assoc]
    exact (List.perm_append_comm).append_right _
  | trans h1 h2 ih1 ih2 => exact ih1.trans ih2

/-- Invariant of the merge loop: fed a list of at least two well-formed
positive-frequency subtrees, it produces a well-formed internal root
whose symbols are exactly those of the list. -/
theorem merge_loop_spec : ∀ (fuel : Nat) (l : List HNode) (last : Option HNode),
    l.length ≤ fuel → 2 ≤ l.length →
    (∀ n ∈ l, wf n = true ∧ 1 ≤ n.frequency) →
    ∃ root, merge_loop fuel l last = some root ∧ wf root = true ∧
      root.leaf_node = false ∧ 1 ≤ root.frequency ∧ (syms root).Perm (symsOf l) := by
  intro fuel
  induction fuel with
  | zero =>
    intro l last hfuel hlen hinv
    omega
  | succ fuel ih =>
    intro l last hfuel hlen hinv
    match l, hlen with
    | x :: y :: rest, _ =>
      obtain ⟨hwx, hfx⟩ := hinv x (by simp)
      obtain ⟨hwy, hfy⟩ := hinv y (by simp)
      have hcomb : x.frequency + y.frequency ≠ 0 := by omega
      have hcreate : helement_create LIST_SPECIAL_ELEMENT false (x.frequency + y.frequency)
          = HNode.node0 255 false (x.frequency + y.frequency) := by
        simp only [helement_create, SPECIAL_ELEMENT_FREQUENCY, LIST_SPECIAL_ELEMENT]
        rw [if_neg hcomb]
      set parent : HNode := if y.leaf_node then HNode.node2 255 false (x.frequency + y.frequency) x y
        else HNode.node2 255 false (x.frequency + y.frequency) y x with hparent
      have hconnect : htree_connect (HNode.node0 255 false (x.frequency + y.frequency)) x y
          = some parent := by
        rw [htree_connect]
        rw [if_neg (by rw [HNode.leaf_node]; simp)]
        by_cases hy : y.leaf_node
        · rw [if_pos hy, hparent, if_pos hy]
          rfl
        · rw [if_neg hy, hparent, if_neg hy]
          rfl
      have hunfold : merge_loop (fuel + 1) (x :: y :: rest) last
          = match htree_connect (helement_create LIST_SPECIAL_ELEMENT false (x.frequency + y.frequency)) x y with
            | none => none
            | some parent => merge_loop fuel (fix_order parent rest) (some parent) := rfl
      have hstep : merge_loop (fuel + 1) (x :: y :: rest) last
          = merge_loop fuel (fix_order parent rest) (some parent) := by
        rw [hunfold, hcreate, hconnect]
      have hwp : wf parent = true := by
        rw [hparent]
        by_cases hy : y.leaf_node
        · rw [if_pos hy]
          simp [wf, hwx, hwy]
        · rw [if_neg hy]
          simp [wf, hwx, hwy]
      have hlp : parent.leaf_node = false := by
        rw [hparent]
        by_cases hy : y.leaf_node
        · rw [if_pos hy]
          rfl
        · rw [if_neg hy]
          rfl
      have hfp : 1 ≤ parent.frequency := by
        rw [hparent]
        by_cases hy : y.leaf_node
        · rw [if_pos hy]
          rw [show (HNode.node2 255 false (x.frequency + y.frequency) x y).frequency
            = x.frequency + y.frequency from rfl]
          omega
        · rw [if_neg hy]
          rw [show (HNode.node2 255 false (x.frequency + y.frequency) y x).frequency
            = x.frequency + y.frequency from rfl]
          omega
      have hsp : (syms parent).Perm (syms x ++ syms y) := by
        rw [hparent]
        by_cases hy : y.leaf_node
        · rw [if_pos hy]
          rw [show syms (HNode.node2 255 false (x.frequency + y.frequency) x y)
            = syms x ++ syms y from by simp [syms]]
        · rw [if_neg hy]
          rw [show syms (HNode.node2 255 false (x.frequency + y.frequency) y x)
            = syms y ++ syms x from by simp [syms]]
          exact List.perm_append_comm
      have hsymsl : (symsOf (x :: y :: rest)).Perm ((syms x ++ syms y) ++ symsOf rest) := by
        simp [symsOf, List.flatMap_cons, List.append_assoc]
      cases rest with
      | nil =>
        have hfix : fix_order parent [] = [parent] := rfl
        have hend : merge_loop fuel [parent] (some parent) = some parent := by
          cases fuel <;> rfl
        refine ⟨parent, ?_, hwp, hlp, hfp, ?_⟩
        · rw [hstep, hfix, hend]
        · refine hsp.trans ?_
          simp [symsOf]
      | cons z zs =>
        have hlen2 : 2 ≤ (fix_order parent (z :: zs)).length := by
          rw [fix_order_length]
          simp
        have hfuel2 : (fix_order parent (z :: zs)).length ≤ fuel := by
          rw [fix_order_length]
          simp at hfuel ⊢
          omega
        have hinv2 : ∀ n ∈ fix_order parent (z :: zs), wf n = true ∧ 1 ≤ n.frequency := by
          intro n hn
          rcases (mem_fix_order _ _ n).mp hn with rfl | hn2
          · exact ⟨hwp, hfp⟩
          · exact hinv n (by simp [hn2])
        obtain ⟨root, hroot, hwr, hlr, hfr, hsr⟩ := ih (fix_order parent (z :: zs)) (some parent) hfuel2 hlen2 hinv2
        refine ⟨root, by rw [hstep, hroot], hwr, hlr, hfr, ?_⟩
        have hp2 : (symsOf (fix_order parent (z :: zs))).Perm (symsOf (parent :: z :: zs)) :=
          perm_flatMap_syms _ _ (fix_order_perm parent (z :: zs))
        have hp3 : (symsOf (parent :: z :: zs)).Perm ((syms x ++ syms y) ++ symsOf (z :: zs)) := by
          have : symsOf (parent :: z :: zs) = syms parent ++ symsOf (z :: zs) := by
            simp [symsOf, List.flatMap_cons]
          rw [this]
          exact hsp.append_right _
        exact hsr.trans ((hp2.trans hp3).trans hsymsl.symm)

/-! ## Helpers for the end-to-end round trip -/

theorem symsOf_eq_map_element (l : List HNode)
    (h : ∀ n ∈ l, wf n = true ∧ n.leaf_node = true) :
    symsOf l = l.map HNode.element := by
  induction l with
  | nil => rfl
  | cons x xs ih =>
    obtain ⟨hw, hb⟩ := h x (by simp)
    obtain ⟨e, f, rfl, hse⟩ := wf_leaf_shape x hw hb
    rw [symsOf, List.flatMap_cons, List.map_cons]
    rw [symsOf] at ih
    rw [ih (fun n hn => h n (by simp [hn]))]
    rw [hse]
    rfl

theorem syms_length_pos (t : HNode) (h : wf t = true) : 1 ≤ (syms t).length := by
  induction t with
  | node0 e b f =>
    have : b = true := by simpa [wf] using h
    subst this
    simp [syms]
  | nodeL e b f l ihl => simp [wf] at h
  | nodeR e b f r ihr => simp [wf] at h
  | node2 e b f l r ihl ihr =>
    simp only [wf, Bool.and_eq_true, Bool.not_eq_eq_eq_not, Bool.not_true] at h
    obtain ⟨⟨hb, hl⟩, hr⟩ := h
    subst hb
    have := ihl hl
    simp [syms]
    omega

theorem numNodes_le_syms (t : HNode) (h : wf t = true) :
    numNodes t ≤ 2 * (syms t).length - 1 := by
  induction t with
  | node0 e b f =>
    have : b = true := by simpa [wf] using h
    subst this
    simp [syms, numNodes]
  | nodeL e b f l ihl => simp [wf] at h
  | nodeR e b f r ihr => simp [wf] at h
  | node2 e b f l r ihl ihr =>
    simp only [wf, Bool.and_eq_true, Bool.not_eq_eq_eq_not, Bool.not_true] at h
    obtain ⟨⟨hb, hl⟩, hr⟩ := h
    subst hb
    have h1 := ihl hl
    have h2 := ihr hr
    have h3 := syms_length_pos l hl
    have h4 := syms_length_pos r hr
    simp only [numNodes, syms, Bool.false_eq_true, if_false, List.length_append]
    omega

theorem nodup_lt256_length_le (l : List Nat) (hnd : l.Nodup) (hb : ∀ x ∈ l, x < 256) :
    l.length ≤ 256 := by
  have hsub : l ⊆ List.range 256 := fun x hx => List.mem_range.mpr (hb x hx)
  have := (List.subperm_of_subset hnd hsub).length_le
  simpa using this

theorem wf_internal_shape (t : HNode) (hwf : wf t = true) (hb : t.leaf_node = false) :
    ∃ e f l r, t = HNode.node2 e false f l r := by
  cases t with
  | node0 e b f =>
    have : b = true := by simpa [wf] using hwf
    rw [HNode.leaf_node, this] at hb
    cases hb
  | nodeL e b f l => simp [wf] at hwf
  | nodeR e b f r => simp [wf] at hwf
  | node2 e b f l r =>
    simp only [wf, Bool.and_eq_true, Bool.not_eq_eq_eq_not, Bool.not_true] at hwf
    exact ⟨e, f, l, r, by rw [hwf.1.1]⟩

theorem flatMap_length_le (B : List Nat) (code : Nat → List Bool) (k : Nat)
    (h : ∀ b ∈ B, (code b).length ≤ k) : (B.flatMap code).length ≤ B.length * k := by
  induction B with
  | nil => simp
  | cons b bs ih =>
    rw [List.flatMap_cons, List.length_append, List.length_cons]
    have h1 := h b (by simp)
    have h2 := ih (fun x hx => h x (by simp [hx]))
    have : (bs.length + 1) * k = bs.length * k + k := by ring
    omega

theorem flatMap_length_ge (B : List Nat) (code : Nat → List Bool)
    (h : ∀ b ∈ B, 1 ≤ (code b).length) : B.length ≤ (B.flatMap code).length := by
  induction B with
  | nil => simp
  | cons b bs ih =>
    rw [List.flatMap_cons, List.length_append, List.length_cons]
    have h1 := h b (by simp)
    have h2 := ih (fun x hx => h x (by simp [hx]))
    omega

theorem bvBits_length (v : BVector) : (bvBits v).length = v.working_index := by
  simp [bvBits]

/-- The second encoder pass: appending each input element's opcode
vector in `FULL` mode accumulates exactly the concatenation of the
codes, in input order. -/
theorem encode_fold_spec (vtable : Nat → Option BVector) (code : Nat → List Bool) :
    ∀ (B : List Nat),
    (∀ b ∈ B, ∃ cv, vtable b = some cv ∧ bvWF cv ∧ fullBits cv = code b) →
    ∀ v, bvWF v →
    bvWF (B.foldl (fun acc b =>
      match vtable b with
      | some cv => bvector_append_vector acc cv VECTOR_FLAG_FULL
      | none => acc) v) ∧
    bvBits (B.foldl (fun acc b =>
      match vtable b with
      | some cv => bvector_append_vector acc cv VECTOR_FLAG_FULL
      | none => acc) v) = bvBits v ++ B.flatMap code := by
  intro B
  induction B with
  | nil =>
    intro _ v hv
    refine ⟨hv, by simp⟩
  | cons b bs ih =>
    intro hvt v hv
    obtain ⟨cv, hcv, hcvwf, hcvbits⟩ := hvt b (by simp)
    obtain ⟨hwf1, hbits1⟩ := bvector_append_vector_full_spec v cv hv hcvwf
    obtain ⟨hwf2, hbits2⟩ := ih (fun x hx => hvt x (by simp [hx]))
      (bvector_append_vector v cv VECTOR_FLAG_FULL) hwf1
    rw [List.foldl_cons, hcv]
    refine ⟨hwf2, ?_⟩
    rw [hbits2, hbits1, hcvbits, List.flatMap_cons, List.append_assoc]

/-- End-to-end bit-mode round trip, for inputs on which the encoder is
defined: at least two distinct byte values (otherwise the merge loop
never runs and the C reads an uninitialized `parent`), bytes below 256,
and a generous length bound keeping the `u64` stream-length header
exact. -/
theorem huffman_roundtrip_bit (B : List Nat) (h256 : ∀ b ∈ B, b < 256)
    (hdist : ∃ b1, b1 ∈ B ∧ ∃ b2, b2 ∈ B ∧ b1 ≠ b2) (hblen : B.length < 2 ^ 50) :
    ∃ artifact, huffman_encode B = some artifact ∧ huffman_decode artifact = some B := by
  obtain ⟨hinv, hnd, hmem⟩ := build_distribution_invariant B
  obtain ⟨b1, hb1, b2, hb2, hne⟩ := hdist
  -- the distribution list has at least two entries
  have hb1d : b1 ∈ (build_distribution B).map HNode.element := (hmem b1).mpr hb1
  have hb2d : b2 ∈ (build_distribution B).map HNode.element := (hmem b2).mpr hb2
  have hlen2 : 2 ≤ (build_distribution B).length := by
    rcases hmap : (build_distribution B).map HNode.element with _ | ⟨c, cs⟩
    · rw [hmap] at hb1d
      simp at hb1d
    · rcases cs with _ | ⟨d, ds⟩
      · rw [hmap] at hb1d hb2d
        simp at hb1d hb2d
        exact absurd (hb1d.trans hb2d.symm) hne
      · have : (build_distribution B).length = ((build_distribution B).map HNode.element).length := by
          simp
        rw [this, hmap]
        simp
  -- merge loop produces the encode tree
  have hinv2 : ∀ n ∈ build_distribution B, wf n = true ∧ 1 ≤ n.frequency :=
    fun n hn => ⟨(hinv n hn).1, (hinv n hn).2.2⟩
  obtain ⟨root, hroot, hwr, hlr, hfr, hsr⟩ :=
    merge_loop_spec (build_distribution B).length (build_distribution B) none
      (Nat.le_refl _) hlen2 hinv2
  have hsymseq : symsOf (build_distribution B) = (build_distribution B).map HNode.element :=
    symsOf_eq_map_element _ (fun n hn => ⟨(hinv n hn).1, (hinv n hn).2.1⟩)
  have hsnd : (syms root).Nodup := by
    rw [hsr.nodup_iff, hsymseq]
    exact hnd
  have hsmem : ∀ s, (s ∈ syms root ↔ s ∈ B) := by
    intro s
    rw [hsr.mem_iff, hsymseq, hmem]
  have hs256 : ∀ s ∈ syms root, s < 256 := fun s hs => h256 s ((hsmem s).mp hs)
  have hslen : (syms root).length ≤ 256 := nodup_lt256_length_le _ hsnd hs256
  have hnb : numNodes root ≤ 511 := by
    have := numNodes_le_syms root hwr
    omega
  -- table and per-symbol codes
  have htable : ∀ s, parse_table root [] (fun _ => none) s
      = if s ∈ syms root then some (pathTo root s) else none := by
    intro s
    rw [parse_table_spec root hwr hsnd [] (fun _ => none) s]
    simp
  have hpath_ne : ∀ s, pathTo root s ≠ [] := by
    obtain ⟨re, rf, rl, rr, hshape⟩ := wf_internal_shape root hwr hlr
    intro s
    rw [hshape, pathTo]
    by_cases hm : s ∈ syms rl <;> simp [hm]
  have hcode_pos : ∀ s, 1 ≤ (stringBits (pathTo root s)).length := by
    intro s
    rw [stringBits_all_valid _ (pathTo_chars root s)]
    have := hpath_ne s
    cases hp : pathTo root s
    · exact absurd hp this
    · simp
  have hcode_le : ∀ s, (stringBits (pathTo root s)).length ≤ 511 := by
    intro s
    rw [stringBits_all_valid _ (pathTo_chars root s)]
    have := pathTo_length_le root s
    omega
  -- the vector table conversion succeeds
  have hvt : build_vector_table (parse_table root [] (fun _ => none))
      = some (fun i => if i < 256 then ((parse_table root [] (fun _ => none)) i).bind bvector_convert else none) := by
    rw [build_vector_table, if_pos]
    rw [List.all_eq_true]
    intro i _
    rw [htable i]
    by_cases hm : i ∈ syms root
    · rw [if_pos hm]
      obtain ⟨w, hw, _⟩ := bvector_convert_spec (pathTo root i) (hpath_ne i)
      simp [hw]
    · rw [if_neg hm]
  have hcv : ∀ b ∈ B, ∃ cv,
      (if b < 256 then ((parse_table root [] (fun _ => none)) b).bind bvector_convert else none) = some cv ∧
      bvWF cv ∧ fullBits cv = stringBits (pathTo root b) := by
    intro b hb
    obtain ⟨w, hw, hwcap, hwcur, hwstore, hwbits⟩ := bvector_convert_spec (pathTo root b) (hpath_ne b)
    refine ⟨w, ?_, ?_, hwbits⟩
    · rw [if_pos (h256 b hb), htable b, if_pos ((hsmem b).mpr hb)]
      simp [hw]
    · refine ⟨by rw [hwstore, hwcap], by rw [hwcap, hwcur], ?_⟩
      rw [hwcap]
      exact hcode_pos b
  -- the body bits
  obtain ⟨hvwf, hvbits⟩ := encode_fold_spec
    (fun i => if i < 256 then ((parse_table root [] (fun _ => none)) i).bind bvector_convert else none)
    (fun b => stringBits (pathTo root b)) B hcv ⟨[0], 1, 0⟩ (bvWF_create 1 (by omega))
  set vec := B.foldl (fun acc b =>
    match (if b < 256 then ((parse_table root [] (fun _ => none)) b).bind bvector_convert else none) with
    | some cv => bvector_append_vector acc cv VECTOR_FLAG_FULL
    | none => acc) (⟨[0], 1, 0⟩ : BVector) with hvec
  set bits := B.flatMap (fun b => stringBits (pathTo root b)) with hbits
  have hv0bits : bvBits (⟨[0], 1, 0⟩ : BVector) = [] := by
    simp [bvBits]
  rw [hv0bits] at hvbits
  rw [List.nil_append] at hvbits
  have hcursor : vec.working_index = bits.length := by
    rw [← bvBits_length, hvbits]
  -- bit-count bounds
  have hbits_le : bits.length ≤ B.length * 511 :=
    flatMap_length_le B _ 511 (fun b _ => hcode_le b)
  have hbits_lt : bits.length < 2 ^ 64 := by
    have h1 : B.length * 511 < 2 ^ 50 * 511 :=
      Nat.mul_lt_mul_of_pos_right hblen (by norm_num)
    have h2 : 2 ^ 50 * 511 < 2 ^ 64 := by norm_num
    omega
  have hbits_pos : 1 ≤ bits.length := by
    have h1 : B.length ≤ bits.length := flatMap_length_ge B _ (fun b _ => hcode_pos b)
    have h2 : 1 ≤ B.length := by
      cases B with
      | nil => simp at hb1
      | cons => simp
    omega
  -- counts
  have hcnt : parse_count root = numNodes root := parse_count_eq_numNodes root hwr
  have hcnt_pos : 1 ≤ parse_count root := by
    rw [hcnt]
    exact numNodes_pos root
  have hcnt_lt : parse_count root < 2 ^ 64 := by
    rw [hcnt]
    have : (2 : Nat) ^ 64 > 511 := by norm_num
    omega
  -- the tree write
  have houtput : htree_output ⟨some root, parse_count root, true⟩ 0
      = some (Int.ofNat (0 + 8 + (tree_output_bytes root).length),
          leBytes 8 (parse_count root) ++ tree_output_bytes root) := by
    rw [htree_output]
    simp only [show ((⟨some root, parse_count root, true⟩ : HTree).parsed = false) = False from by simp,
      if_false]
    rw [if_neg (by simp; omega)]
  -- the encoder's output value
  have htreeadd : htree_add_element htree_create root = ⟨some root, 1, false⟩ := rfl
  have hparse : htree_parse ⟨some root, 1, false⟩
      = some (parse_table root [] (fun _ => none), ⟨some root, parse_count root, true⟩) := rfl
  have hsize_stream : bvector_get_size vec VECTOR_FLAG_STREAM = bits.length := by
    rw [bvector_get_size]
    rw [if_neg (by rw [VECTOR_FLAG_STREAM, VECTOR_FLAG_FULL]; omega), if_pos rfl]
    exact hcursor
  have hencode : huffman_encode B
      = some ((leBytes 8 (parse_count root) ++ tree_output_bytes root)
          ++ leBytes 8 bits.length ++ padTake (bits.length / 8 + 1) vec.vector) := by
    rw [huffman_encode]
    simp only [hroot, htreeadd, hparse, hvt]
    rw [show bvector_create 1 = some ⟨[0], 1, 0⟩ from rfl]
    simp only [← hvec, houtput]
    rw [if_neg (by rw [Int.not_lt]; exact Int.ofNat_nonneg _)]
    simp only [bvector_output, hsize_stream]
  refine ⟨_, hencode, ?_⟩
  -- decoding the artifact
  set treeB := leBytes 8 (parse_count root) ++ tree_output_bytes root with htreeB
  set hdrB := leBytes 8 bits.length with hhdrB
  set stB := padTake (bits.length / 8 + 1) vec.vector with hstB
  have htoblen := tree_output_bytes_length root
  have htreeBlen : treeB.length = 8 + 2 * numNodes root := by
    rw [htreeB]
    simp [leBytes_length, htoblen]
  have hhdrBlen : hdrB.length = 8 := leBytes_length 8 _
  have hstlen : stB.length = bits.length / 8 + 1 := padTake_length _ _
  have hmod : parse_count root % 2 ^ 64 = parse_count root := Nat.mod_eq_of_lt hcnt_lt
  have hassoc : treeB ++ hdrB ++ stB
      = leBytes 8 (parse_count root) ++ tree_output_bytes root ++ (hdrB ++ stB) := by
    rw [htreeB]
    simp [List.append_assoc]
  have hinput : htree_input (treeB ++ hdrB ++ stB)
      = some ⟨some (defreq root), parse_count root % 2 ^ 64, false⟩ := by
    rw [hassoc]
    exact htree_input_spec_internal root hwr hlr (parse_count root) (hdrB ++ stB)
  have hread1 : readBytes (treeB ++ hdrB ++ stB) treeB.length 8 = some hdrB := by
    have h1 := readBytes_exact treeB hdrB stB
    rw [hhdrBlen] at h1
    exact h1
  have hfle : fromLE hdrB = bits.length := by
    rw [hhdrB]
    exact fromLE_leBytes_of_lt 8 _ hbits_lt
  have hcreate2 : bvector_create bits.length
      = some ⟨List.replicate (bits.length / 8 + 1) 0, bits.length, 0⟩ :=
    bvector_create_spec _ (by omega)
  have hread2 : readBytes (treeB ++ hdrB ++ stB) (treeB.length + 8) (bits.length / 8 + 1)
      = some stB := by
    have h1 := readBytes_exact (treeB ++ hdrB) stB []
    rw [List.append_nil, List.length_append, hhdrBlen, hstlen] at h1
    exact h1
  have hbvinput : bvector_input (treeB ++ hdrB ++ stB) treeB.length
      = some ⟨stB, bits.length, bits.length⟩ := by
    rw [bvector_input, hread1]
    simp only [hfle, hcreate2, hread2]
  have hkey : ∀ i, i < bits.length →
      bvGet ⟨stB, bits.length, bits.length⟩ i = bvGet vec i := by
    intro i hilt
    show (stB.getD (i / 8) 0).testBit (i % 8) = (vec.vector.getD (i / 8) 0).testBit (i % 8)
    rw [hstB, padTake_getD _ _ _ (by omega)]
  have hvec2bits : bvBits ⟨stB, bits.length, bits.length⟩ = bits :=
    calc bvBits ⟨stB, bits.length, bits.length⟩
        = (List.range bits.length).map (bvGet ⟨stB, bits.length, bits.length⟩) := rfl
      _ = (List.range bits.length).map (bvGet vec) :=
          List.map_congr_left (fun i hi => hkey i (List.mem_range.mp hi))
      _ = (List.range vec.working_index).map (bvGet vec) := by rw [hcursor]
      _ = bvBits vec := rfl
      _ = bits := hvbits
  have hop : decoder_opcodes ⟨stB, bits.length, bits.length⟩ = bits.map boolToInt := by
    rw [decoder_opcodes_eq _ (Nat.le_refl _), hvec2bits]
  have hleads : ∀ b ∈ B, Leads (defreq root) (stringBits (pathTo root b)) b := by
    intro b hb
    have h1 := pathTo_leads (defreq root) (by rw [defreq_wf]; exact hwr)
      (by rw [defreq_leaf]; exact hlr) b (by rw [defreq_syms]; exact (hsmem b).mpr hb)
    rw [defreq_pathTo] at h1
    exact h1
  have hloop := decode_loop_flat ⟨some (defreq root), parse_count root % 2 ^ 64, false⟩
    (defreq root) rfl (fun b => stringBits (pathTo root b)) B hleads []
  rw [huffman_decode]
  simp only [hinput]
  rw [show 8 + 2 * (parse_count root % 2 ^ 64) = treeB.length from by
    rw [hmod, hcnt, htreeBlen]]
  simp only [hbvinput, hop, hbits, hloop, List.nil_append]

/-! ## Claim theorems -/

/-- Helper for C4: `_parse` reads only elements, leaf flags and the
shape, so the default-frequency reconstruction has the same table. -/
theorem parse_table_defreq (t : HNode) :
    ∀ acc tb, parse_table (defreq t) acc tb = parse_table t acc tb := by
  induction t with
  | node0 e b fq =>
    intro acc tb
    rfl
  | nodeL e b fq l ihl =>
    intro acc tb
    by_cases hb : b
    · simp [defreq, parse_table, hb]
    · simp [defreq, parse_table, hb, ihl]
  | nodeR e b fq r ihr =>
    intro acc tb
    by_cases hb : b
    · simp [defreq, parse_table, hb]
    · simp [defreq, parse_table, hb, ihr]
  | node2 e b fq l r ihl ihr =>
    intro acc tb
    by_cases hb : b
    · simp [defreq, parse_table, hb]
    · simp [defreq, parse_table, hb, ihl, ihr]

/-- Claim C1, counterexample to the unconditional round trip: on an
input with a single distinct byte value the merge loop never runs and
`huffman_encode` reads the uninitialized `parent` local (undefined
behaviour, modelled as `none`), so no artifact is produced at all. -/
theorem claim_C1_counterexample : huffman_encode [0] = none := by decide

/-- Claim C1 (corrected): encoding then decoding in bit mode is the
identity, provided the input has at least two distinct byte values
(otherwise the encoder's merge loop never runs and the C reads an
uninitialized variable), all bytes are below 256, and the length is
far below `2^64` so the `u64` stream-length header is exact. -/
theorem claim_C1 (B : List Nat) (h256 : ∀ b ∈ B, b < 256)
    (hdist : ∃ b1, b1 ∈ B ∧ ∃ b2, b2 ∈ B ∧ b1 ≠ b2) (hblen : B.length < 2 ^ 50) :
    ∃ artifact, huffman_encode B = some artifact ∧ huffman_decode artifact = some B :=
  huffman_roundtrip_bit B h256 hdist hblen

/-- Claim C1 witness: the round trip at the concrete input `[97, 98]`. -/
theorem claim_C1_witness :
    (∀ b ∈ [97, 98], b < 256) ∧
    ∃ artifact, huffman_encode [97, 98] = some artifact ∧
      huffman_decode artifact = some [97, 98] :=
  ⟨by decide, claim_C1 [97, 98] (by decide) ⟨97, by decide, 98, by decide, by decide⟩
    (by norm_num)⟩

/-- Claim C2, counterexample: on `tfArtifact` the opcode stream is
exhausted at the inner internal node, which is not the root, yet
`huffman_decode` succeeds with `some []` instead of failing. -/
theorem claim_C2_counterexample :
    huffman_decode tfArtifact = some [] ∧
    htree_input tfArtifact = some tfTree ∧
    decode_loop tfTree (decoder_opcodes ⟨[0], 1, 1⟩) tfTree.root [] = some (some tfInner, []) ∧
    some tfInner ≠ tfTree.root := by decide

/-- Claim C2 (corrected): `huffman_decode` performs no end-of-stream
check of the current node.  Whenever the tree and the bit vector are
read back and the opcode walk completes, the decode succeeds with the
collected bytes even when the final current node differs from the
root — a truncated stream is not surfaced as a failure. -/
theorem claim_C2 (f : List Nat) (t : HTree) (v : BVector) (final : Option HNode)
    (out : List Nat) (h1 : htree_input f = some t)
    (h2 : bvector_input f (8 + 2 * t.count) = some v)
    (h3 : decode_loop t (decoder_opcodes v) t.root [] = some (final, out))
    (hne : final ≠ t.root) :
    huffman_decode f = some out := by
  rw [huffman_decode]
  simp only [h1, h2, h3]

/-- Claim C2 witness: the corrected claim at `tfArtifact`. -/
theorem claim_C2_witness :
    some tfInner ≠ tfTree.root ∧ huffman_decode tfArtifact = some [] :=
  ⟨by decide, claim_C2 tfArtifact tfTree ⟨[0], 1, 1⟩ (some tfInner) [] (by decide)
    (by decide) (by decide) (by decide)⟩

/-- Claim C3, counterexample: for the reachable one-bit vector
(capacity 1, cursor 1) the storage part written in `STREAM` mode is a
single byte (`floor(1/8) + 1`), not the `ceil(1/8) + 1 = 2` bytes the
spec words. -/
theorem claim_C3_counterexample :
    bvector_create 1 = some ⟨[0], 1, 0⟩ ∧
    bvector_append_bit ⟨[0], 1, 0⟩ 1 = some ⟨[1], 1, 1⟩ ∧
    (bvector_output ⟨[1], 1, 1⟩ 0 VECTOR_FLAG_STREAM).2.2.length = 1 ∧
    spec_output_storage_bytes (bvector_get_size ⟨[1], 1, 1⟩ VECTOR_FLAG_STREAM) = 2 := by
  decide

/-- Claim C3 (corrected): `bvector_output` writes a `u64` little-endian
header equal to `get_size(v, flag)`, then exactly `floor(header/8) + 1`
storage bytes (not `ceil(header/8) + 1`), and returns
`offset + 8 + that byte count`. -/
theorem claim_C3 (v : BVector) (offset flag : Nat) :
    (bvector_output v offset flag).2.1 = leBytes 8 (bvector_get_size v flag) ∧
    fromLE (bvector_output v offset flag).2.1 = bvector_get_size v flag % 2 ^ 64 ∧
    (bvector_output v offset flag).2.2.length = bvector_get_size v flag / 8 + 1 ∧
    (bvector_output v offset flag).1
      = Int.ofNat (offset + 8 + (bvector_output v offset flag).2.2.length) := by
  refine ⟨rfl, ?_, padTake_length _ _, ?_⟩
  · rw [show (bvector_output v offset flag).2.1 = leBytes 8 (bvector_get_size v flag) from rfl]
    rw [fromLE_leBytes]
  · rw [show (bvector_output v offset flag).2.2.length
        = bvector_get_size v flag / 8 + 1 from padTake_length _ _]
    rfl

/-- Claim C4 (confirmed): deserializing the serialized form of a
well-formed parsed tree reconstructs the same nodes in the same
pre-order with identical leaf flags (only the unserialized frequencies
are reset to the default 1, which is `defreq`): the serialized bytes of
the reconstruction coincide, and the parse pass produces the same code
table.  The left child is read at index `k + 1` and the right child at
the left subtree's last index plus one (`tree_input_fill`). -/
theorem claim_C4 (r : HNode) (hwf : wf r = true) (ret : Int) (bytes : List Nat)
    (hout : htree_output ⟨some r, parse_count r, true⟩ 0 = some (ret, bytes)) :
    htree_input bytes = some ⟨some (defreq r), parse_count r % 2 ^ 64, false⟩ ∧
    tree_output_bytes (defreq r) = tree_output_bytes r ∧
    ∀ acc tb, parse_table (defreq r) acc tb = parse_table r acc tb := by
  have hcnt : 1 ≤ parse_count r := by
    rw [parse_count_eq_numNodes r hwf]
    exact numNodes_pos r
  have hbytes : bytes = leBytes 8 (parse_count r) ++ tree_output_bytes r := by
    simp only [htree_output] at hout
    rw [if_neg (by simp)] at hout
    rw [if_neg (by omega)] at hout
    simp only [Option.some.injEq, Prod.mk.injEq] at hout
    exact hout.2.symm
  refine ⟨?_, defreq_output_bytes r, parse_table_defreq r⟩
  by_cases hleaf : r.leaf_node = true
  · obtain ⟨e, f0, hre, hsy⟩ := wf_leaf_shape r hwf hleaf
    rw [hbytes, hre]
    exact htree_input_spec_leaf e f0 (parse_count (HNode.node0 e true f0))
  · have hlf : r.leaf_node = false := by
      revert hleaf
      cases r.leaf_node <;> simp
    have h1 := htree_input_spec_internal r hwf hlf (parse_count r) []
    rw [List.append_nil] at h1
    rw [hbytes]
    exact h1

/-- Claim C4 witness: serialize/deserialize of a concrete three-node
tree. -/
theorem claim_C4_witness :
    htree_input [3, 0, 0, 0, 0, 0, 0, 0, 255, 0, 97, 1, 98, 1]
        = some ⟨some (HNode.node2 255 false 1 (HNode.node0 97 true 1) (HNode.node0 98 true 1)),
            3 % 2 ^ 64, false⟩ ∧
    tree_output_bytes
        (defreq (HNode.node2 255 false 5 (HNode.node0 97 true 2) (HNode.node0 98 true 3)))
      = tree_output_bytes
          (HNode.node2 255 false 5 (HNode.node0 97 true 2) (HNode.node0 98 true 3)) ∧
    ∀ acc tb,
      parse_table
          (defreq (HNode.node2 255 false 5 (HNode.node0 97 true 2) (HNode.node0 98 true 3)))
          acc tb
        = parse_table (HNode.node2 255 false 5 (HNode.node0 97 true 2) (HNode.node0 98 true 3))
            acc tb :=
  claim_C4 (HNode.node2 255 false 5 (HNode.node0 97 true 2) (HNode.node0 98 true 3))
    (by decide) 14 [3, 0, 0, 0, 0, 0, 0, 0, 255, 0, 97, 1, 98, 1] (by decide)

/-- Claim C5 (confirmed): `hlist_add_increment_element` preserves
ascending frequency order (both the fresh-insert path, which bubbles
the new head by `_fix_order`, and the increment path, which re-orders
the incremented node), so the head of the result is a node of globally
minimum frequency. -/
theorem claim_C5 (l : List HNode) (hs : sortedByFreq l) (e f : Nat) :
    sortedByFreq (hlist_add_increment_element l e f) ∧
    ∀ hd, (hlist_add_increment_element l e f).head? = some hd →
      ∀ x ∈ hlist_add_increment_element l e f, hd.frequency ≤ x.frequency := by
  have hsorted : sortedByFreq (hlist_add_increment_element l e f) := by
    rw [hlist_add_increment_element]
    by_cases hc : (e = LIST_SPECIAL_ELEMENT ∧ f ≠ SPECIAL_ELEMENT_FREQUENCY)
        ∨ hlist_search l e = none
    · rw [if_pos hc]
      exact fix_order_sorted _ _ hs
    · rw [if_neg hc]
      exact increment_first_sorted _ _ hs
  exact ⟨hsorted, fun hd hhd x hx => sorted_head_min _ hsorted x hx hd hhd⟩

/-- Claim C5 witness: inserting element 99 into a concrete sorted
two-node list. -/
theorem claim_C5_witness :
    sortedByFreq [HNode.node0 97 true 1, HNode.node0 98 true 2] ∧
    (sortedByFreq (hlist_add_increment_element
        [HNode.node0 97 true 1, HNode.node0 98 true 2] 99 0) ∧
      ∀ hd, (hlist_add_increment_element
          [HNode.node0 97 true 1, HNode.node0 98 true 2] 99 0).head? = some hd →
        ∀ x ∈ hlist_add_increment_element [HNode.node0 97 true 1, HNode.node0 98 true 2] 99 0,
          hd.frequency ≤ x.frequency) :=
  ⟨by decide, claim_C5 [HNode.node0 97 true 1, HNode.node0 98 true 2] (by decide) 99 0⟩

/-- Claim C6, counterexample: `_search` matches by element only and
never consults the leaf flag, so with a non-leaf sentinel node already
in the list, the sentinel symbol with frequency 0 (the non-special
case) increments that internal node although no leaf with the symbol
exists. -/
theorem claim_C6_counterexample :
    (∀ x ∈ [HNode.node0 255 false 2], x.leaf_node = false) ∧
    hlist_add_increment_element [HNode.node0 255 false 2] 255 0
      = [HNode.node0 255 false 3] := by decide

/-- Claim C6 (corrected): the sentinel symbol with nonzero frequency
always inserts a fresh non-leaf node without searching; otherwise, if
`_search` finds a node with the element — leaf or not, the flag is not
consulted — that node's frequency grows by exactly 1 (the `freq`
argument is ignored); otherwise a fresh leaf is inserted. -/
theorem claim_C6 (l : List HNode) (e f : Nat) :
    (e = LIST_SPECIAL_ELEMENT → f ≠ SPECIAL_ELEMENT_FREQUENCY →
      hlist_add_increment_element l e f = fix_order (helement_create e false f) l ∧
      (hlist_add_increment_element l e f).length = l.length + 1) ∧
    (¬(e = LIST_SPECIAL_ELEMENT ∧ f ≠ SPECIAL_ELEMENT_FREQUENCY) →
      (hlist_search l e).isSome →
      (hlist_add_increment_element l e f).Perm (bump_first e l)) ∧
    (¬(e = LIST_SPECIAL_ELEMENT ∧ f ≠ SPECIAL_ELEMENT_FREQUENCY) →
      hlist_search l e = none →
      hlist_add_increment_element l e f = fix_order (helement_create e true f) l) := by
  refine ⟨?_, ?_, ?_⟩
  · intro he hf
    have hcond : e = LIST_SPECIAL_ELEMENT ∧ f ≠ SPECIAL_ELEMENT_FREQUENCY := ⟨he, hf⟩
    rw [hlist_add_increment_element, if_pos (Or.inl hcond), if_pos hcond]
    exact ⟨rfl, fix_order_length _ _⟩
  · intro hn hsome
    rw [hlist_add_increment_element, if_neg]
    · exact increment_first_perm_bump e l
    · rintro (h | h)
      · exact hn h
      · rw [h] at hsome
        simp at hsome
  · intro hn hnone
    rw [hlist_add_increment_element, if_pos (Or.inr hnone), if_neg hn]

/-- Claim C6 witness: the three paths at concrete lists — a fresh
sentinel insert, an increment of an existing element, and a fresh leaf
insert into the empty list. -/
theorem claim_C6_witness :
    (hlist_add_increment_element [HNode.node0 97 true 3] 255 4
        = fix_order (helement_create 255 false 4) [HNode.node0 97 true 3] ∧
      (hlist_add_increment_element [HNode.node0 97 true 3] 255 4).length
        = [HNode.node0 97 true 3].length + 1) ∧
    (hlist_add_increment_element [HNode.node0 97 true 1] 97 7).Perm
      (bump_first 97 [HNode.node0 97 true 1]) ∧
    hlist_add_increment_element [] 97 0 = fix_order (helement_create 97 true 0) [] :=
  ⟨(claim_C6 [HNode.node0 97 true 3] 255 4).1 (by decide) (by decide),
    (claim_C6 [HNode.node0 97 true 1] 97 7).2.1 (by decide) (by decide),
    (claim_C6 [] 97 0).2.2 (by decide) (by decide)⟩

/-- Claim C7 (confirmed): `htree_output` returns `-2` on an unparsed
tree and `-3` on a parsed tree with `count < 1`, writing nothing (the
emitted byte list is empty) in both cases. -/
theorem claim_C7 (t : HTree) (offset : Nat) :
    (t.parsed = false → htree_output t offset = some (-2, [])) ∧
    (t.parsed = true → t.count < 1 → htree_output t offset = some (-3, [])) := by
  constructor
  · intro h
    rw [htree_output, if_pos h]
  · intro hp hc
    rw [htree_output, if_neg (by rw [hp]; simp), if_pos hc]

/-- Claim C7 witness: both error paths at concrete trees and offsets. -/
theorem claim_C7_witness :
    htree_output ⟨none, 5, false⟩ 3 = some (-2, []) ∧
    htree_output ⟨some (HNode.node0 97 true 1), 0, true⟩ 2 = some (-3, []) :=
  ⟨(claim_C7 ⟨none, 5, false⟩ 3).1 rfl,
    (claim_C7 ⟨some (HNode.node0 97 true 1), 0, true⟩ 2).2 rfl (by decide)⟩

/-- Claim C8, counterexample: on the empty string `strlen` is 0, so
`bvector_create(0)` fails and `bvector_convert` returns NULL instead
of an empty vector. -/
theorem claim_C8_counterexample : bvector_convert [] = none := by decide

/-- Claim C8 (corrected): on every nonempty string, `bvector_convert`
produces a vector whose bits are exactly the 0 and 1 characters of the
string in order, other characters silently skipped, and whose capacity
and cursor both equal the number of valid characters (the capacity is
compacted by the final resize). -/
theorem claim_C8 (s : List Nat) (hs : s ≠ []) :
    ∃ w, bvector_convert s = some w ∧
      w.vector_length = (stringBits s).length ∧
      w.working_index = (stringBits s).length ∧
      fullBits w = stringBits s := by
  obtain ⟨w, h1, h2, h3, h4, h5⟩ := bvector_convert_spec s hs
  exact ⟨w, h1, h2, h3, h5⟩

/-- Claim C8 witness: conversion of the string "10x". -/
theorem claim_C8_witness :
    ∃ w, bvector_convert [49, 48, 120] = some w ∧
      w.vector_length = (stringBits [49, 48, 120]).length ∧
      w.working_index = (stringBits [49, 48, 120]).length ∧
      fullBits w = stringBits [49, 48, 120] :=
  claim_C8 [49, 48, 120] (by decide)

/-- Claim C9 (confirmed): `htree_count` returns 0 for every tree — the
C assigns the local pointer `NULL` and returns 0 unconditionally — so
even for a tree with a root it never reports the node count. -/
theorem claim_C9 (t : HTree) (r : HNode) (hr : t.root = some r) :
    htree_count t = 0 ∧ htree_count t ≠ numNodes r := by
  refine ⟨rfl, ?_⟩
  have h1 := numNodes_pos r
  rw [htree_count]
  omega

/-- Claim C9 witness: a concrete single-leaf tree. -/
theorem claim_C9_witness :
    htree_count ⟨some (HNode.node0 97 true 1), 1, true⟩ = 0 ∧
    htree_count ⟨some (HNode.node0 97 true 1), 1, true⟩ ≠ numNodes (HNode.node0 97 true 1) :=
  claim_C9 ⟨some (HNode.node0 97 true 1), 1, true⟩ (HNode.node0 97 true 1) rfl

/-- Claim C10 (confirmed): `bvector_append_bit` rejects every bit
argument above 1 with NULL before touching the vector, so only bit
values 0 and 1 are ever appended. -/
theorem claim_C10 (v : BVector) (b : Nat) (hb : 1 < b) :
    bvector_append_bit v b = none := by
  rw [bvector_append_bit, if_pos hb]

/-- Claim C10 witness: appending the bit value 2. -/
theorem claim_C10_witness : bvector_append_bit ⟨[0], 1, 0⟩ 2 = none :=
  claim_C10 ⟨[0], 1, 0⟩ 2 (by decide)

end Huffman
